import Mathlib

/-!
# Translation index of `itdept/i18n`

Shallow embedding of `src/i18n.go` (package `i18n`): the translation record,
the backend interface, the cache store, the view builders and the lookup
function `T`, followed by theorems about load priority, fallback order,
auto-creation on a miss and repeated lookups.

Conventions of the embedding

* A Go `error` is an `Option String`: `none` is `nil`.
* Backends and the cache store are mutable objects shared by reference in
  Go; here every operation returns the updated index explicitly.
* Effects that the source performs on its collaborators are recorded in a
  list of `Event`s returned next to the result.
-/

namespace i18n

/-- Go `error`: `none` is `nil`, `some msg` is an error carrying `msg`. -/
abbrev Error := Option String

/-- The struct `Translation` (i18n.go:33-38). The field `Backend` is a reference
to the owning backend, kept as its position in the backend list; it carries
the tag `json:"-"`, so the cache store never serialises it. -/
structure Translation where
  Key : String
  Locale : String
  Value : String
  Backend : Option Nat
  deriving DecidableEq, Repr

/-- The zero value of `Translation` (`var translation Translation`). -/
def Translation.zero : Translation := ⟨"", "", "", none⟩

/-- The interface `Backend` (i18n.go:26-30) as an object with hidden state:
`LoadTranslations` reads the state, `SaveTranslation` and `DeleteTranslation`
return an error and the next state. A backend receives the translation by
pointer; it is taken not to write through that pointer. -/
structure Backend : Type 1 where
  State : Type
  state : State
  load : State → List Translation
  save : State → Translation → Error × State
  delete : State → Translation → Error × State

/-- Method `LoadTranslations` of a backend. -/
def Backend.LoadTranslations (b : Backend) : List Translation :=
  b.load b.state

/-- Method `SaveTranslation` of a backend: the error and the backend afterwards. -/
def Backend.SaveTranslation (b : Backend) (t : Translation) : Error × Backend :=
  ((b.save b.state t).1, { b with state := (b.save b.state t).2 })

/-- Method `DeleteTranslation` of a backend: the error and the backend afterwards. -/
def Backend.DeleteTranslation (b : Backend) (t : Translation) : Error × Backend :=
  ((b.delete b.state t).1, { b with state := (b.delete b.state t).2 })

/-- Modelled from the spec: the cache store (`cache.CacheStoreInterface`, whose
default `memory.New()` lives in package `github.com/qor/cache`, outside the
repository). It is the in-process map of section 2 of the spec: a partial map
from cache keys to stored translations. The store is pluggable
(`SetCacheStore`), and the spec leaves the result of `delete(key)` to the store
(`delete(key) -> Result`): `deleteError` is the error the store reports when
asked to delete a key; the in-process map reports `nil` for every key. -/
structure CacheStore where
  values : String → Option Translation
  deleteError : String → Error

/-- Modelled from the spec: `memory.New()`, the empty in-process map, whose
`Delete` reports no error. -/
def CacheStore.New : CacheStore :=
  { values := fun _ => none, deleteError := fun _ => none }

/-- What serialising a translation keeps: every field but `Backend`
(`json:"-"`). -/
def Translation.stored (t : Translation) : Translation :=
  { t with Backend := none }

/-- Modelled from the spec: `set(key, value)`; it overwrites unconditionally
and stores the serialised translation. -/
def CacheStore.Set (c : CacheStore) (key : String) (t : Translation) : CacheStore :=
  { c with values := fun k => if k = key then some t.stored else c.values k }

/-- Modelled from the spec: `unmarshal(key, out)`. On a hit the serialised
fields overwrite `out` (its `Backend` is left as it was) and the error is
`nil`; on a miss `out` is untouched and the error is not `nil`. -/
def CacheStore.Unmarshal (c : CacheStore) (key : String) (out : Translation) :
    Error × Translation :=
  match c.values key with
  | some v => (none, { v with Backend := out.Backend })
  | none => (some "not found", out)

/-- Modelled from the spec: `delete(key)`: the store removes the entry and
reports its result (`nil` for the in-process map). -/
def CacheStore.Delete (c : CacheStore) (key : String) : Error × CacheStore :=
  (c.deleteError key, { c with values := fun k => if k = key then none else c.values k })

/-- The function `cacheKey` (i18n.go:223-225): `strings.Join(strs, "/")`. -/
def cacheKey (strs : List String) : String :=
  String.intercalate "/" strs

/-- The struct `I18n` (i18n.go:16-23); `FallbackLocales` is a Go map. The field
`fallbackLocales` is a Go slice: here it is the list the slice reads when a
method is called; the backing array it shares with other slices is the
subject of `Slice`, `Heap` and `SlicedView` below. -/
structure I18n where
  scope : String
  value : String
  Backends : List Backend
  FallbackLocales : String → Option (List String)
  fallbackLocales : List String
  cacheStore : CacheStore

/-- Effects on the collaborators of the index, in the order they happen. -/
inductive Event where
  | saveCall (t : Translation)
  | backendSave (idx : Nat) (t : Translation)
  | backendDelete (idx : Nat) (t : Translation)
  | cacheSet (key : String) (t : Translation)
  | cacheDelete (key : String)
  deriving DecidableEq, Repr

/-- The process-wide settings `T` reads: the package variable `Default`
(i18n.go:13, initially `"en-US"`) and the formatter `cldr.Parse`, which
belongs to package `github.com/theplant/cldr` and is taken as a parameter. -/
structure Env (α : Type) where
  Default : String
  Parse : String → String → List α → Option String

/-- Method `AddTranslation` (i18n.go:80-82). -/
def I18n.AddTranslation (i : I18n) (t : Translation) : I18n :=
  { i with cacheStore := i.cacheStore.Set (cacheKey [t.Locale, t.Key]) t }

/-- Method `loadToCacheStore` (i18n.go:53-61): the backends are visited from the
last to the first, and every translation of a backend is added in the order
it is returned. -/
def I18n.loadToCacheStore (i : I18n) : I18n :=
  i.Backends.reverse.foldl
    (fun acc backend => backend.LoadTranslations.foldl I18n.AddTranslation acc) i

/-- Function `New` (i18n.go:41-45). -/
def New (backends : List Backend) : I18n :=
  I18n.loadToCacheStore
    { scope := "", value := "", Backends := backends, FallbackLocales := fun _ => none,
      fallbackLocales := [], cacheStore := CacheStore.New }

/-- The loop of `SaveTranslation` (i18n.go:86-91) from backend number `idx` on:
whether a backend accepted, the backends afterwards, and the save calls made. -/
def saveLoop (t : Translation) : Nat → List Backend → Bool × List Backend × List Event
  | _, [] => (false, [], [])
  | idx, b :: bs =>
    if (b.SaveTranslation t).1 = none then
      (true, (b.SaveTranslation t).2 :: bs, [Event.backendSave idx t])
    else
      ((saveLoop t (idx + 1) bs).1,
       (b.SaveTranslation t).2 :: (saveLoop t (idx + 1) bs).2.1,
       Event.backendSave idx t :: (saveLoop t (idx + 1) bs).2.2)

/-- Result of `SaveTranslation`: the error, the index afterwards, the effects. -/
structure SaveResult where
  err : Error
  i18n : I18n
  events : List Event

/-- Method `SaveTranslation` (i18n.go:85-94). -/
def I18n.SaveTranslation (i : I18n) (t : Translation) : SaveResult :=
  if (saveLoop t 0 i.Backends).1 then
    { err := none
      i18n := I18n.AddTranslation { i with Backends := (saveLoop t 0 i.Backends).2.1 } t
      events := Event.saveCall t :: (saveLoop t 0 i.Backends).2.2
        ++ [Event.cacheSet (cacheKey [t.Locale, t.Key]) t] }
  else
    { err := some "failed to save translation"
      i18n := { i with Backends := (saveLoop t 0 i.Backends).2.1 }
      events := Event.saveCall t :: (saveLoop t 0 i.Backends).2.2 }

/-- Method `Scope` (i18n.go:106-109). -/
def I18n.Scope (i : I18n) (scope : String) : I18n :=
  { cacheStore := i.cacheStore, scope := scope, value := i.value, Backends := i.Backends,
    FallbackLocales := i.FallbackLocales, fallbackLocales := i.fallbackLocales }

/-- Method `Default` (i18n.go:112-115). -/
def I18n.Default (i : I18n) (value : String) : I18n :=
  { cacheStore := i.cacheStore, scope := i.scope, value := value, Backends := i.Backends,
    FallbackLocales := i.FallbackLocales, fallbackLocales := i.fallbackLocales }

/-- Method `Fallbacks` (i18n.go:118-121), on the list the caller's slice reads;
`SlicedView.Fallbacks` keeps the slice itself. -/
def I18n.Fallbacks (i : I18n) (locale : List String) : I18n :=
  { cacheStore := i.cacheStore, scope := i.scope, value := i.value, Backends := i.Backends,
    FallbackLocales := i.FallbackLocales, fallbackLocales := locale }

/-- The loop over `fallbackLocales` in `T` (i18n.go:146-150): every locale is
unmarshalled into the same variable `translation`, and the loop breaks at the
first hit with a non-empty value. -/
def probeFallbacks (c : CacheStore) (key : String) : List String → Translation → Translation
  | [], translation => translation
  | fallbackLocale :: rest, translation =>
    if (c.Unmarshal (cacheKey [fallbackLocale, key]) translation).1 = none
        ∧ (c.Unmarshal (cacheKey [fallbackLocale, key]) translation).2.Value ≠ "" then
      (c.Unmarshal (cacheKey [fallbackLocale, key]) translation).2
    else
      probeFallbacks c key rest (c.Unmarshal (cacheKey [fallbackLocale, key]) translation).2

/-- Result of `T`: the returned string, the local variables `value` (as handed
to the formatter) and `translation` (after the lookup), the index afterwards
and the effects. -/
structure TResult where
  text : String
  value : String
  translation : Translation
  i18n : I18n
  events : List Event

/-- The local `locale` of `T` after i18n.go:131-133. -/
def effectiveLocale {α : Type} (env : Env α) (locale : String) : String :=
  if locale = "" then env.Default else locale

/-- The local `fallbackLocales` of `T` after i18n.go:135-138, for the local
`locale`. -/
def I18n.candidates {α : Type} (env : Env α) (i : I18n) (locale : String) : List String :=
  (match i.FallbackLocales locale with
    | some locales => i.fallbackLocales ++ locales
    | none => i.fallbackLocales) ++ [env.Default]

/-- The local `translationKey` of `T` after i18n.go:140-142. -/
def I18n.translationKey (i : I18n) (key : String) : String :=
  if i.scope ≠ "" then String.intercalate "." [i.scope, key] else key

/-- The end of `T` (i18n.go:168-178): choose the text and format it. -/
def finish {α : Type} (env : Env α) (locale key : String) (args : List α)
    (translation : Translation) (i : I18n) (events : List Event) : TResult :=
  let value := if translation.Value ≠ "" then translation.Value else key
  { text := match env.Parse locale value args with
      | some str => str
      | none => value
    value := value
    translation := translation
    i18n := i
    events := events }

/-- Method `T` (i18n.go:124-179). -/
def I18n.T {α : Type} (env : Env α) (i : I18n) (locale key : String) (args : List α) :
    TResult :=
  let locale := effectiveLocale env locale
  let fallbackLocales := i.candidates env locale
  let translationKey := i.translationKey key
  let first := i.cacheStore.Unmarshal (cacheKey [locale, key]) Translation.zero
  if first.1 ≠ none ∨ first.2.Value = "" then
    let translation := probeFallbacks i.cacheStore key fallbackLocales first.2
    if translation.Value = "" then
      let dflt := i.cacheStore.Unmarshal (cacheKey [env.Default, key]) translation
      if dflt.1 ≠ none ∨ dflt.2.Value = "" then
        let defaultBackend : Option Nat := if i.Backends.length > 0 then some 0 else none
        let translation : Translation :=
          { Key := translationKey, Value := i.value, Locale := locale, Backend := defaultBackend }
        let saved := i.SaveTranslation translation
        finish env locale key args translation saved.i18n saved.events
      else
        finish env locale key args dflt.2 i []
    else
      finish env locale key args translation i []
  else
    finish env locale key args first.2 i []

/-- A Go slice of strings: the identity of its backing array, its length and
its capacity (the slice starts at the first cell of the array). -/
structure Slice where
  array : Nat
  len : Nat
  cap : Nat
  deriving DecidableEq, Repr

/-- The backing arrays of the program, by identity. -/
abbrev Heap := Nat → List String

/-- What a slice reads: the first `len` cells of its backing array. -/
def Slice.read (heap : Heap) (s : Slice) : List String :=
  (heap s.array).take s.len

/-- Go `append(s, xs...)` on a local slice variable, as far as the existing
backing arrays go; `none` is a slice on a fresh array that only the running
call holds. With room (`len + len(xs) <= cap`) the new cells are written in
place behind the slice, into the shared array; without room Go copies into a
fresh array and the existing arrays are untouched. -/
def Slice.append (heap : Heap) : Option Slice → List String → Option Slice × Heap
  | none, _ => (none, heap)
  | some s, xs =>
    if s.len + xs.length ≤ s.cap then
      (some { s with len := s.len + xs.length },
       fun a =>
        if a = s.array then (heap a).take s.len ++ xs ++ (heap a).drop (s.len + xs.length)
        else heap a)
    else (none, heap)

/-- A view whose field `fallbackLocales` is the Go slice it is in the source
(i18n.go:21); `view` carries the other fields. -/
structure SlicedView where
  view : I18n
  fallbackLocales : Slice

/-- Method `Fallbacks` (i18n.go:118-121) with the caller's slice `locale`: the
new view keeps that slice, not a copy of its cells. -/
def SlicedView.Fallbacks (v : SlicedView) (locale : Slice) : SlicedView :=
  { view := v.view, fallbackLocales := locale }

/-- The view as a method call finds it: its explicit fallback list is what its
slice reads in the heap of that moment. -/
def SlicedView.current (heap : Heap) (v : SlicedView) : I18n :=
  v.view.Fallbacks (v.fallbackLocales.read heap)

/-- Method `T` (i18n.go:124-179) on a view with a slice: the result of `T` on
the view as found, and the heap after the two appends of i18n.go:135-138,
which start from the view's own slice (i18n.go:128). -/
def SlicedView.T {α : Type} (env : Env α) (heap : Heap) (v : SlicedView)
    (locale key : String) (args : List α) : TResult × Heap :=
  let afterStatic :=
    match v.view.FallbackLocales (effectiveLocale env locale) with
    | some locales => Slice.append heap (some v.fallbackLocales) locales
    | none => (some v.fallbackLocales, heap)
  ((v.current heap).T env locale key args,
   (Slice.append afterStatic.2 afterStatic.1 [env.Default]).2)

/-- The loop of `DeleteTranslation` (i18n.go:98-100) from backend number `idx`
on: every backend is asked to delete and its error is dropped. -/
def deleteLoop (t : Translation) : Nat → List Backend → List Backend × List Event
  | _, [] => ([], [])
  | idx, b :: bs =>
    ((b.DeleteTranslation t).2 :: (deleteLoop t (idx + 1) bs).1,
     Event.backendDelete idx t :: (deleteLoop t (idx + 1) bs).2)

/-- Result of `DeleteTranslation`: the error, the index afterwards, the effects. -/
structure DeleteResult where
  err : Error
  i18n : I18n
  events : List Event

/-- Method `DeleteTranslation` (i18n.go:97-103). -/
def I18n.DeleteTranslation (i : I18n) (t : Translation) : DeleteResult :=
  { err := (i.cacheStore.Delete (cacheKey [t.Locale, t.Key])).1
    i18n := { i with
      Backends := (deleteLoop t 0 i.Backends).1
      cacheStore := (i.cacheStore.Delete (cacheKey [t.Locale, t.Key])).2 }
    events := (deleteLoop t 0 i.Backends).2
      ++ [Event.cacheDelete (cacheKey [t.Locale, t.Key])] }

/-- The value of `LoadTranslations`: the Go map
`map[string]map[string]*Translation`. -/
abbrev Snapshot := String → Option (String → Option Translation)

/-- Go indexing `translations[locale][key]`; indexing a missing inner map
gives `nil`. -/
def Snapshot.lookup (s : Snapshot) (locale key : String) : Option Translation :=
  match s locale with
  | some inner => inner key
  | none => none

/-- The body of the inner loop of `LoadTranslations` (i18n.go:70-73). -/
def Snapshot.put (s : Snapshot) (translation : Translation) : Snapshot :=
  let s1 : Snapshot :=
    match s translation.Locale with
    | none => fun l => if l = translation.Locale then some (fun _ => none) else s l
    | some _ => s
  fun l =>
    if l = translation.Locale then
      match s1 translation.Locale with
      | some inner => some (fun k => if k = translation.Key then some translation else inner k)
      | none => none
    else s1 l

/-- Method `LoadTranslations` of the index (i18n.go:64-77): the backends are
visited from the last to the first. -/
def I18n.LoadTranslations (i : I18n) : Snapshot :=
  i.Backends.reverse.foldl
    (fun translations backend => backend.LoadTranslations.foldl Snapshot.put translations)
    (fun _ => none)

namespace yaml

/-- A key of a `yaml.MapItem`: a Go string, or any other value together with
what `fmt.Sprint` prints for it. -/
inductive Key where
  | str (s : String)
  | other (sprint : String)
  deriving DecidableEq, Repr

/-- What `fmt.Sprint` prints for a key. -/
def Key.Sprint : Key → String
  | Key.str s => s
  | Key.other sprint => sprint

/-- The type assertion `item.Key.(string)`; `none` stands for its panic. -/
def Key.assertString : Key → Option String
  | Key.str s => some s
  | Key.other _ => none

mutual
/-- A decoded YAML value: a `yaml.MapSlice`, or any other value together with
what `fmt.Sprint` prints for it. -/
inductive Value where
  | leaf (sprint : String)
  | mapSlice (items : MapSlice)
/-- The type `yaml.MapSlice`: an ordered list of `MapItem`s. -/
inductive MapSlice where
  | nil
  | cons (key : Key) (value : Value) (rest : MapSlice)
end

mutual
/-- Function `loadTranslationsFromYaml` (yaml.go:203-219). -/
def loadTranslationsFromYaml (locale : String) : Value → List String → List Translation
  | Value.leaf sprint, scopes =>
    [{ Locale := locale, Key := String.intercalate "." scopes, Value := sprint,
       Backend := none }]
  | Value.mapSlice items, scopes => loadItems locale items scopes
/-- The loop `for _, s := range v` of `loadTranslationsFromYaml`
(yaml.go:206-209). -/
def loadItems (locale : String) : MapSlice → List String → List Translation
  | MapSlice.nil, _ => []
  | MapSlice.cons key value rest, scopes =>
    loadTranslationsFromYaml locale value (scopes ++ [key.Sprint])
      ++ loadItems locale rest scopes
end

/-- Method `LoadYAMLContent` (yaml.go:222-232) on a document that
`yaml.Unmarshal` decoded into `slice`; `none` stands for the panic of the
type assertion on a top-level key that is not a string. -/
def LoadYAMLContent : MapSlice → Option (List Translation)
  | MapSlice.nil => some []
  | MapSlice.cons key value rest =>
    match key.assertString with
    | some locale =>
      match LoadYAMLContent rest with
      | some translations => some (loadTranslationsFromYaml locale value [] ++ translations)
      | none => none
    | none => none

end yaml

/-! ## Specification vocabulary -/

/-- The non-empty value the cache store holds for `(locale, key)`, if any. -/
def CacheStore.hit (c : CacheStore) (locale key : String) : Option String :=
  match c.values (cacheKey [locale, key]) with
  | some t => if t.Value = "" then none else some t.Value
  | none => none

/-- The first non-empty value found for `key` along a list of locales. -/
def CacheStore.firstHit (c : CacheStore) (key : String) (locales : List String) :
    Option String :=
  locales.findSome? (fun l => c.hit l key)

/-- The translation `T` synthesises on a miss (i18n.go:156-160), for the local
`locale`. -/
def I18n.autoCreated (i : I18n) (locale key : String) : Translation :=
  { Key := i.translationKey key, Value := i.value, Locale := locale,
    Backend := if i.Backends.length > 0 then some 0 else none }

/-- The last entry of a list of translations for `(locale, key)`. -/
def lastEntry (ts : List Translation) (locale key : String) : Option Translation :=
  ts.reverse.find? (fun t => t.Locale = locale ∧ t.Key = key)

/-- A string free of the separator of `cacheKey`. -/
def sepFree (s : String) : Prop := '/' ∉ s.data

instance (s : String) : Decidable (sepFree s) := by unfold sepFree; infer_instance

/-- Two cache stores that differ only in that one holds an entry with an empty
`Value` where the other holds no entry. -/
def sameUpToEmpty (c1 c2 : CacheStore) : Prop :=
  ∀ k, c1.values k = c2.values k ∨
    (c1.values k = none ∧ ∃ t, c2.values k = some t ∧ t.Value = "") ∨
    (c2.values k = none ∧ ∃ t, c1.values k = some t ∧ t.Value = "")

/-- The first position at which a backend accepts the save of `t`. -/
def firstAccepting (t : Translation) : List Backend → Option Nat
  | [] => none
  | b :: bs =>
    if (b.SaveTranslation t).1 = none then some 0
    else (firstAccepting t bs).map (fun n => n + 1)

namespace yaml

mutual
/-- The non-mapping leaves of a value in document order, each with the path
of mapping keys leading to it and its printed form. -/
def Value.leaves : Value → List (List String × String)
  | Value.leaf sprint => [([], sprint)]
  | Value.mapSlice items => items.leaves
/-- The leaves below the items of a mapping, in document order. -/
def MapSlice.leaves : MapSlice → List (List String × String)
  | MapSlice.nil => []
  | MapSlice.cons key value rest =>
    value.leaves.map (fun p => (key.Sprint :: p.1, p.2)) ++ rest.leaves
end

/-- The translations the spec asks for: one per leaf below each top-level key,
in document order, the key being the path joined with dots. -/
def flatten : MapSlice → List Translation
  | MapSlice.nil => []
  | MapSlice.cons key value rest =>
    value.leaves.map (fun p =>
      ({ Locale := key.Sprint, Key := String.intercalate "." p.1, Value := p.2,
         Backend := none } : Translation)) ++ flatten rest

/-- Every top-level key of the document is a Go string. -/
def stringKeys : MapSlice → Prop
  | MapSlice.nil => True
  | MapSlice.cons key _ rest => (∃ s, key = Key.str s) ∧ stringKeys rest

end yaml

/-- Whether an effect is a call of the index's `SaveTranslation`. -/
def Event.isSaveCall : Event → Bool
  | Event.saveCall _ => true
  | _ => false

/-! ## Example data -/

/-- A backend with the save and delete behaviour of the YAML backend
(yaml.go:246-254): both return the error "not implemented"; `ts` stands for
the translations its files flatten to. -/
def readOnlyBackend (ts : List Translation) : Backend :=
  { State := Unit, state := (), load := fun _ => ts,
    save := fun s _ => (some "not implemented", s),
    delete := fun s _ => (some "not implemented", s) }

/-- An in-memory backend that accepts every save and every delete. -/
def memoryBackend (ts : List Translation) : Backend :=
  { State := List Translation, state := ts, load := fun s => s,
    save := fun s t => (none, s ++ [t]),
    delete := fun s t => (none, s.filter (fun x => ¬ (x.Locale = t.Locale ∧ x.Key = t.Key))) }

/-- Example settings: default locale `"en-US"` and a formatter that returns
its pattern unchanged. -/
def exampleEnv : Env String :=
  { Default := "en-US", Parse := fun _ value _ => some value }

/-- Example cache store: `fr/k`, `es/k` and `en-US/k` hold values, `de/k` does
not. -/
def exampleCache : CacheStore :=
  { values := fun k =>
      if k = "fr/k" then some ⟨"k", "fr", "F", none⟩
      else if k = "es/k" then some ⟨"k", "es", "S", none⟩
      else if k = "en-US/k" then some ⟨"k", "en-US", "E", none⟩
      else none
    deleteError := fun _ => none }

/-- Example view: explicit fallback `fr`, static fallback `es` for locale `de`. -/
def exampleView : I18n :=
  { scope := "", value := "", Backends := [],
    FallbackLocales := fun l => if l = "de" then some ["es"] else none,
    fallbackLocales := ["fr"], cacheStore := exampleCache }

/-- Example index: a read-only backend and an in-memory backend that both
return `(en, k)`, on a cache store whose `Delete` reports "unavailable". -/
def failingDeleteView : I18n :=
  { scope := "", value := "", FallbackLocales := fun _ => none, fallbackLocales := [],
    Backends := [readOnlyBackend [⟨"k", "en", "V", none⟩],
      memoryBackend [⟨"k", "en", "V", none⟩, ⟨"j", "en", "W", none⟩]],
    cacheStore :=
      { values := fun k => if k = "en/k" then some ⟨"k", "en", "V", none⟩ else none
        deleteError := fun _ => some "unavailable" } }

/-- Example view on the example cache, without fallbacks: its slice is `nil`. -/
def plainView : SlicedView :=
  { view := { scope := "", value := "", Backends := [], FallbackLocales := fun _ => none,
              fallbackLocales := [], cacheStore := exampleCache },
    fallbackLocales := ⟨0, 0, 0⟩ }

/-- Example heap: the array number 1 is `s = [it, es, _]`, made with length 2
and capacity 3. -/
def sharedHeap : Heap := fun a => if a = 1 then ["it", "es", ""] else []

/-- The view `Fallbacks(s[:1]...)`: the slice of length 1 and capacity 3. -/
def narrowView : SlicedView := plainView.Fallbacks ⟨1, 1, 3⟩

/-- The view `Fallbacks(s...)`: the slice of length 2 and capacity 3. -/
def wideView : SlicedView := plainView.Fallbacks ⟨1, 2, 3⟩

/-- Example settings whose formatter rejects every call. -/
def rejectingEnv : Env String :=
  { Default := "en-US", Parse := fun _ _ _ => none }

/-- Example index whose cache holds `Hello {0}` under `en/greet`. -/
def greetView : I18n :=
  { scope := "", value := "", Backends := [], FallbackLocales := fun _ => none,
    fallbackLocales := [],
    cacheStore := CacheStore.Set CacheStore.New "en/greet" ⟨"greet", "en", "Hello {0}", none⟩ }

/-- Example document `{en: {user: {name: "Name"}}}`. -/
def yaml.exampleDocument : yaml.MapSlice :=
  yaml.MapSlice.cons (yaml.Key.str "en")
    (yaml.Value.mapSlice (yaml.MapSlice.cons (yaml.Key.str "user")
      (yaml.Value.mapSlice (yaml.MapSlice.cons (yaml.Key.str "name")
        (yaml.Value.leaf "Name") yaml.MapSlice.nil)) yaml.MapSlice.nil))
    yaml.MapSlice.nil

/-! ## Lookup lemmas -/

theorem cacheKey_pair (l k : String) : cacheKey [l, k] = l ++ "/" ++ k := rfl

theorem hit_ne_empty {c : CacheStore} {l key v : String} (h : c.hit l key = some v) :
    v ≠ "" := by
  unfold CacheStore.hit at h
  split at h
  · split at h
    · simp at h
    · rename_i t _ hv
      simp at h
      rw [← h]; exact hv
  · simp at h

theorem unmarshal_of_hit {c : CacheStore} {l key v : String} (out : Translation)
    (h : c.hit l key = some v) :
    (c.Unmarshal (cacheKey [l, key]) out).1 = none ∧
      (c.Unmarshal (cacheKey [l, key]) out).2.Value = v := by
  unfold CacheStore.hit at h
  unfold CacheStore.Unmarshal
  split at h
  · rename_i t ht
    split at h
    · simp at h
    · simp at h
      simp [ht, h]
  · simp at h

theorem unmarshal_of_miss {c : CacheStore} {l key : String} (out : Translation)
    (hout : out.Value = "") (h : c.hit l key = none) :
    ((c.Unmarshal (cacheKey [l, key]) out).1 ≠ none ∨
      (c.Unmarshal (cacheKey [l, key]) out).2.Value = "") ∧
      (c.Unmarshal (cacheKey [l, key]) out).2.Value = "" := by
  unfold CacheStore.hit at h
  unfold CacheStore.Unmarshal
  split at h
  · rename_i t ht
    split at h
    · rename_i hv
      simp [ht, hv]
    · simp at h
  · rename_i ht
    simp [ht, hout]

theorem probeFallbacks_value (c : CacheStore) (key : String) (ls : List String) :
    ∀ tr : Translation, tr.Value = "" →
      (probeFallbacks c key ls tr).Value = (c.firstHit key ls).getD "" := by
  induction ls with
  | nil => intro tr h; simp [probeFallbacks, CacheStore.firstHit, h]
  | cons l rest ih =>
    intro tr h
    unfold probeFallbacks
    cases hh : c.hit l key with
    | none =>
      have hm := unmarshal_of_miss tr h hh
      have hne : ¬ ((c.Unmarshal (cacheKey [l, key]) tr).1 = none ∧
          (c.Unmarshal (cacheKey [l, key]) tr).2.Value ≠ "") := by
        intro hc; exact hc.2 hm.2
      rw [if_neg hne, ih _ hm.2]
      simp [CacheStore.firstHit, hh]
    | some v =>
      have hu := unmarshal_of_hit tr hh
      have hv := hit_ne_empty hh
      have hpos : (c.Unmarshal (cacheKey [l, key]) tr).1 = none ∧
          (c.Unmarshal (cacheKey [l, key]) tr).2.Value ≠ "" := ⟨hu.1, by rw [hu.2]; exact hv⟩
      rw [if_pos hpos, hu.2]
      simp [CacheStore.firstHit, hh]

theorem firstHit_cons (c : CacheStore) (key l : String) (ls : List String) :
    c.firstHit key (l :: ls) = (c.hit l key).orElse (fun _ => c.firstHit key ls) := by
  unfold CacheStore.firstHit
  cases h : c.hit l key <;> simp [List.findSome?, h]

theorem firstHit_eq_none {c : CacheStore} {key : String} {ls : List String}
    (h : c.firstHit key ls = none) : ∀ l ∈ ls, c.hit l key = none := by
  induction ls with
  | nil => intro l hl; simp at hl
  | cons a rest ih =>
    rw [firstHit_cons] at h
    cases ha : c.hit a key with
    | some v => simp [ha] at h
    | none =>
      simp [ha] at h
      intro l hl
      rcases List.mem_cons.mp hl with rfl | hl
      · exact ha
      · exact ih h l hl

theorem default_mem_candidates {α : Type} (env : Env α) (i : I18n) (locale : String) :
    env.Default ∈ i.candidates env locale := by
  unfold I18n.candidates
  simp

/-- On a hit `T` hands the found value to the formatter and has no effect. -/
theorem T_of_hit {α : Type} (env : Env α) (i : I18n) (locale key : String) (args : List α)
    (v : String)
    (h : i.cacheStore.firstHit key
      (effectiveLocale env locale :: i.candidates env (effectiveLocale env locale)) = some v) :
    (i.T env locale key args).value = v ∧ (i.T env locale key args).events = [] ∧
      (i.T env locale key args).i18n = i := by
  rw [firstHit_cons] at h
  unfold I18n.T
  cases h1 : i.cacheStore.hit (effectiveLocale env locale) key with
  | some w =>
    simp [h1] at h
    subst h
    have hu := unmarshal_of_hit Translation.zero h1
    have hw := hit_ne_empty h1
    have hc : ¬ ((i.cacheStore.Unmarshal (cacheKey [effectiveLocale env locale, key])
        Translation.zero).1 ≠ none ∨ (i.cacheStore.Unmarshal
        (cacheKey [effectiveLocale env locale, key]) Translation.zero).2.Value = "") := by
      rw [hu.1, hu.2]; simp [hw]
    simp only [hc, if_false]
    simp [finish, hu.2, hw]
  | none =>
    simp [h1] at h
    have hz : Translation.zero.Value = "" := rfl
    have hm := unmarshal_of_miss Translation.zero hz h1
    have hp := probeFallbacks_value i.cacheStore key
      (i.candidates env (effectiveLocale env locale)) _ hm.2
    rw [h] at hp
    simp at hp
    have hne : v ≠ "" := by
      intro hv0
      subst hv0
      unfold CacheStore.firstHit at h
      obtain ⟨l, _, hl⟩ := List.exists_of_findSome?_eq_some h
      exact hit_ne_empty hl rfl
    simp only [hm.1, if_true]
    have hpv : ¬ (probeFallbacks i.cacheStore key (i.candidates env (effectiveLocale env locale))
        (i.cacheStore.Unmarshal (cacheKey [effectiveLocale env locale, key])
          Translation.zero).2).Value = "" := by
      rw [hp]; exact hne
    simp only [hpv, if_false]
    simp [finish, hp, hne]

/-- On a miss in every probed locale `T` synthesises a translation, saves it
and resolves from it. -/
theorem T_of_miss {α : Type} (env : Env α) (i : I18n) (locale key : String) (args : List α)
    (h : i.cacheStore.firstHit key
      (effectiveLocale env locale :: i.candidates env (effectiveLocale env locale)) = none) :
    i.T env locale key args =
      finish env (effectiveLocale env locale) key args
        (i.autoCreated (effectiveLocale env locale) key)
        (i.SaveTranslation (i.autoCreated (effectiveLocale env locale) key)).i18n
        (i.SaveTranslation (i.autoCreated (effectiveLocale env locale) key)).events := by
  rw [firstHit_cons] at h
  cases h1 : i.cacheStore.hit (effectiveLocale env locale) key with
  | some w => simp [h1] at h
  | none =>
    simp [h1] at h
    have hz : Translation.zero.Value = "" := rfl
    have hm := unmarshal_of_miss Translation.zero hz h1
    have hp := probeFallbacks_value i.cacheStore key
      (i.candidates env (effectiveLocale env locale)) _ hm.2
    rw [h] at hp
    simp at hp
    have hd := firstHit_eq_none h env.Default (default_mem_candidates env i _)
    have hdm := unmarshal_of_miss _ hp hd
    unfold I18n.T
    simp only [hm.1, if_true, hp, hdm.1]
    rfl

/-! ## Load lemmas -/

theorem list_sep_inj {l1 k1 l2 k2 : List Char} (h1 : '/' ∉ k1) (h2 : '/' ∉ k2)
    (h : l1 ++ '/' :: k1 = l2 ++ '/' :: k2) : l1 = l2 ∧ k1 = k2 := by
  rcases List.append_eq_append_iff.mp h with ⟨a, ha, hb⟩ | ⟨a, ha, hb⟩
  · cases a with
    | nil => simp at ha hb; exact ⟨ha.symm, hb⟩
    | cons x a =>
      simp at hb
      exact absurd (by rw [hb.2]; simp) h1
  · cases a with
    | nil => simp at ha hb; exact ⟨ha, hb.symm⟩
    | cons x a =>
      simp at hb
      exact absurd (by rw [hb.2]; simp) h2

theorem cacheKey_inj {l1 k1 l2 k2 : String} (h1 : sepFree k1) (h2 : sepFree k2)
    (h : cacheKey [l1, k1] = cacheKey [l2, k2]) : l1 = l2 ∧ k1 = k2 := by
  rw [cacheKey_pair, cacheKey_pair] at h
  have hd := congrArg String.data h
  simp only [String.data_append] at hd
  simp only [List.append_assoc, List.singleton_append] at hd
  have := list_sep_inj h1 h2 hd
  exact ⟨String.ext this.1, String.ext this.2⟩

theorem foldl_add_values (K : String) (ts : List Translation) :
    ∀ i : I18n, (ts.foldl I18n.AddTranslation i).cacheStore.values K =
      match ts.reverse.find? (fun t => cacheKey [t.Locale, t.Key] = K) with
      | some t => some t.stored
      | none => i.cacheStore.values K := by
  induction ts with
  | nil => intro i; simp
  | cons t ts ih =>
    intro i
    rw [List.foldl_cons, ih, List.reverse_cons, List.find?_append]
    cases hf : ts.reverse.find? (fun t => cacheKey [t.Locale, t.Key] = K) with
    | some x => simp
    | none =>
      by_cases hk : cacheKey [t.Locale, t.Key] = K
      · simp [List.find?, hk, I18n.AddTranslation, CacheStore.Set]
      · have hk2 : ¬ K = cacheKey [t.Locale, t.Key] := fun h => hk h.symm
        simp [List.find?, hk, hk2, I18n.AddTranslation, CacheStore.Set]

theorem load_values (K : String) (i : I18n) (bs : List Backend) :
    (bs.reverse.foldl
      (fun acc backend => backend.LoadTranslations.foldl I18n.AddTranslation acc)
        i).cacheStore.values K =
      match bs.findSome? (fun b =>
          b.LoadTranslations.reverse.find? (fun t => cacheKey [t.Locale, t.Key] = K)) with
      | some t => some t.stored
      | none => i.cacheStore.values K := by
  induction bs with
  | nil => simp
  | cons b rest ih =>
    rw [List.reverse_cons, List.foldl_append]
    simp only [List.foldl_cons, List.foldl_nil]
    rw [foldl_add_values, List.findSome?_cons]
    cases hf : b.LoadTranslations.reverse.find? (fun t => cacheKey [t.Locale, t.Key] = K) with
    | some x => simp
    | none => simp only []; exact ih

theorem find?_congr_mem {α : Type} {p q : α → Bool} :
    ∀ {l : List α}, (∀ x ∈ l, p x = q x) → l.find? p = l.find? q := by
  intro l
  induction l with
  | nil => intro _; rfl
  | cons a l ih =>
    intro h
    have ha := h a (List.mem_cons_self a l)
    have hl := ih (fun x hx => h x (List.mem_cons_of_mem a hx))
    simp [List.find?, ha, hl]

theorem findSome?_at_index {α : Type 1} {β : Type} (f : α → Option β) (t : β) :
    ∀ (bs : List α) (j : Nat) (b : α), bs[j]? = some b → f b = some t →
      (∀ j' b', j' < j → bs[j']? = some b' → f b' = none) → bs.findSome? f = some t := by
  intro bs
  induction bs with
  | nil => intro j b hb; simp at hb
  | cons a rest ih =>
    intro j b hb hf hmin
    cases j with
    | zero =>
      simp at hb
      subst hb
      simp [List.findSome?, hf]
    | succ n =>
      have ha : f a = none := hmin 0 a (Nat.succ_pos n) (by simp)
      simp at hb
      have := ih n b hb hf (fun j' b' hj' hb' => hmin (j' + 1) b' (by omega) (by simpa using hb'))
      simp [List.findSome?, ha, this]

/-! ## Save lemmas -/

theorem firstHit_append (c : CacheStore) (key : String) (xs ys : List String) :
    c.firstHit key (xs ++ ys) = (c.firstHit key xs).orElse (fun _ => c.firstHit key ys) := by
  induction xs with
  | nil => simp [CacheStore.firstHit]
  | cons x xs ih =>
    rw [List.cons_append, firstHit_cons, firstHit_cons, ih]
    cases c.hit x key <;> simp

theorem saveLoop_accepts (t : Translation) (bs : List Backend) :
    ∀ n : Nat, (saveLoop t n bs).1 = true ↔ ∃ b ∈ bs, (b.SaveTranslation t).1 = none := by
  induction bs with
  | nil => intro n; simp [saveLoop]
  | cons b rest ih =>
    intro n
    unfold saveLoop
    by_cases hb : (b.SaveTranslation t).1 = none
    · simp [hb]
    · simp [hb, ih (n + 1)]

theorem saveLoop_events (t : Translation) (bs : List Backend) :
    ∀ n : Nat, ∀ e ∈ (saveLoop t n bs).2.2, ∃ idx, e = Event.backendSave idx t := by
  induction bs with
  | nil => intro n e he; simp [saveLoop] at he
  | cons b rest ih =>
    intro n e he
    unfold saveLoop at he
    by_cases hb : (b.SaveTranslation t).1 = none
    · simp [hb] at he
      exact ⟨n, he⟩
    · simp [hb] at he
      rcases he with he | he
      · exact ⟨n, he⟩
      · exact ih (n + 1) e he

theorem save_events (i : I18n) (t : Translation) :
    ∀ e ∈ (i.SaveTranslation t).events, e = Event.saveCall t ∨
      (∃ idx, e = Event.backendSave idx t) ∨
      e = Event.cacheSet (cacheKey [t.Locale, t.Key]) t := by
  intro e he
  unfold I18n.SaveTranslation at he
  split at he
  · simp at he
    rcases he with he | he | he
    · exact Or.inl he
    · exact Or.inr (Or.inl (saveLoop_events t i.Backends 0 e he))
    · exact Or.inr (Or.inr he)
  · simp at he
    rcases he with he | he
    · exact Or.inl he
    · exact Or.inr (Or.inl (saveLoop_events t i.Backends 0 e he))

theorem save_events_head (i : I18n) (t : Translation) :
    (i.SaveTranslation t).events.head? = some (Event.saveCall t) := by
  unfold I18n.SaveTranslation
  split <;> simp

theorem save_cache_accepted (i : I18n) (t : Translation)
    (h : ∃ b ∈ i.Backends, (b.SaveTranslation t).1 = none) :
    (i.SaveTranslation t).i18n.cacheStore =
      i.cacheStore.Set (cacheKey [t.Locale, t.Key]) t := by
  have := (saveLoop_accepts t i.Backends 0).mpr h
  simp [I18n.SaveTranslation, this, I18n.AddTranslation]

theorem save_cache_rejected (i : I18n) (t : Translation)
    (h : ∀ b ∈ i.Backends, (b.SaveTranslation t).1 ≠ none) :
    (i.SaveTranslation t).i18n.cacheStore = i.cacheStore := by
  have : ¬ (saveLoop t 0 i.Backends).1 = true := by
    rw [saveLoop_accepts]
    rintro ⟨b, hb, hn⟩
    exact h b hb hn
  simp [I18n.SaveTranslation, this]

theorem save_cache_cases (i : I18n) (t : Translation) :
    (i.SaveTranslation t).i18n.cacheStore = i.cacheStore ∨
      (i.SaveTranslation t).i18n.cacheStore =
        i.cacheStore.Set (cacheKey [t.Locale, t.Key]) t := by
  unfold I18n.SaveTranslation
  split
  · right; rfl
  · left; rfl

theorem save_view (i : I18n) (t : Translation) :
    (i.SaveTranslation t).i18n.scope = i.scope ∧ (i.SaveTranslation t).i18n.value = i.value ∧
      (i.SaveTranslation t).i18n.FallbackLocales = i.FallbackLocales ∧
      (i.SaveTranslation t).i18n.fallbackLocales = i.fallbackLocales := by
  unfold I18n.SaveTranslation
  split <;> simp [I18n.AddTranslation]

theorem T_text {α : Type} (env : Env α) (i : I18n) (locale key : String) (args : List α) :
    (i.T env locale key args).text =
      match env.Parse (effectiveLocale env locale) (i.T env locale key args).value args with
      | some str => str
      | none => (i.T env locale key args).value := by
  unfold I18n.T
  simp only []
  split_ifs <;> rfl

theorem T_value_of_miss {α : Type} (env : Env α) (i : I18n) (locale key : String)
    (args : List α)
    (h : i.cacheStore.firstHit key
      (effectiveLocale env locale :: i.candidates env (effectiveLocale env locale)) = none) :
    (i.T env locale key args).value = if i.value ≠ "" then i.value else key := by
  rw [T_of_miss env i locale key args h]
  rfl


/-! ## Properties of load and lookup -/

/-- C1: with separator-free keys, after `New` the cache entry of a pair holds
the translation of the lowest-index backend returning the pair (that backend's
last entry for it). -/
theorem C1_lowest_index_backend_wins (bs : List Backend) (locale key : String) (j : Nat)
    (b : Backend) (t : Translation)
    (hsep : ∀ b' ∈ bs, ∀ t' ∈ b'.LoadTranslations, sepFree t'.Key)
    (hb : bs[j]? = some b)
    (ht : lastEntry b.LoadTranslations locale key = some t)
    (hmin : ∀ j' b', j' < j → bs[j']? = some b' →
      lastEntry b'.LoadTranslations locale key = none) :
    (New bs).cacheStore.values (cacheKey [locale, key]) = some t.stored ∧
      t.stored.Value = t.Value ∧ t.Locale = locale ∧ t.Key = key := by
  have hbmem : b ∈ bs := List.getElem?_mem hb
  have htmem : t ∈ b.LoadTranslations := by
    have := List.mem_of_find?_eq_some ht
    simpa using this
  have htp : t.Locale = locale ∧ t.Key = key := by
    have := List.find?_some ht
    simpa using this
  have hkey : sepFree key := htp.2 ▸ hsep b hbmem t htmem
  have hcongr : ∀ b' ∈ bs,
      b'.LoadTranslations.reverse.find?
          (fun t' => cacheKey [t'.Locale, t'.Key] = cacheKey [locale, key]) =
        lastEntry b'.LoadTranslations locale key := by
    intro b' hb'
    unfold lastEntry
    apply find?_congr_mem
    intro x hx
    have hx' : x ∈ b'.LoadTranslations := by simpa using hx
    have hxs := hsep b' hb' x hx'
    by_cases hp : x.Locale = locale ∧ x.Key = key
    · simp [hp.1, hp.2]
    · have : ¬ cacheKey [x.Locale, x.Key] = cacheKey [locale, key] :=
        fun hc => hp (cacheKey_inj hxs hkey hc)
      simp [hp, this]
  have hfind : bs.findSome? (fun b' => b'.LoadTranslations.reverse.find?
      (fun t' => cacheKey [t'.Locale, t'.Key] = cacheKey [locale, key])) = some t := by
    apply findSome?_at_index _ t bs j b hb
    · rw [hcongr b hbmem]; exact ht
    · intro j' b' hj' hb'
      rw [hcongr b' (List.getElem?_mem hb')]
      exact hmin j' b' hj' hb'
  refine ⟨?_, rfl, htp.1, htp.2⟩
  unfold New I18n.loadToCacheStore
  rw [load_values, hfind]

/-- C1, at two backends that both return `(en, k)`, the first one twice. -/
theorem C1_lowest_index_backend_wins_witness :
    (New [readOnlyBackend [⟨"k", "en", "A0", none⟩, ⟨"k", "en", "A1", none⟩],
          readOnlyBackend [⟨"k", "en", "B", none⟩]]).cacheStore.values (cacheKey ["en", "k"])
        = some (Translation.stored ⟨"k", "en", "A1", none⟩) :=
  (C1_lowest_index_backend_wins
    [readOnlyBackend [⟨"k", "en", "A0", none⟩, ⟨"k", "en", "A1", none⟩],
     readOnlyBackend [⟨"k", "en", "B", none⟩]] "en" "k" 0
    (readOnlyBackend [⟨"k", "en", "A0", none⟩, ⟨"k", "en", "A1", none⟩])
    ⟨"k", "en", "A1", none⟩ (by decide) rfl (by decide) (by intro j' b' h; omega)).1

/-- C2 as stated fails: the explicit view fallback `fr` and the static fallback
`es` both hold a value for `k`, the requested locale `de` holds none, and `T`
resolves to the value of the explicit fallback, not of the static one. -/
theorem C2_counterexample :
    exampleView.fallbackLocales = ["fr"] ∧ exampleView.FallbackLocales "de" = some ["es"] ∧
      exampleCache.hit "de" "k" = none ∧ exampleCache.hit "fr" "k" = some "F" ∧
      exampleCache.hit "es" "k" = some "S" ∧
      (exampleView.T exampleEnv "de" "k" []).value = "F" ∧
      (exampleView.T exampleEnv "de" "k" []).value ≠ "S" := by
  decide

/-- C2 amended: after the requested locale `T` probes the explicit fallbacks of
the view first, then the static list `FallbackLocales[locale]`, then `Default`:
the first explicit fallback holding a non-empty value wins; if none does, the
first static one wins; if none does either, the value under `Default` wins. -/
theorem C2_explicit_then_static_then_default {α : Type} (env : Env α) (i : I18n)
    (locale key : String) (args : List α)
    (hreq : i.cacheStore.hit (effectiveLocale env locale) key = none) :
    (∀ v, i.cacheStore.firstHit key i.fallbackLocales = some v →
        (i.T env locale key args).value = v) ∧
    (∀ v, i.cacheStore.firstHit key i.fallbackLocales = none →
        i.cacheStore.firstHit key
          ((i.FallbackLocales (effectiveLocale env locale)).getD []) = some v →
        (i.T env locale key args).value = v) ∧
    (∀ v, i.cacheStore.firstHit key i.fallbackLocales = none →
        i.cacheStore.firstHit key
          ((i.FallbackLocales (effectiveLocale env locale)).getD []) = none →
        i.cacheStore.hit env.Default key = some v →
        (i.T env locale key args).value = v) := by
  have hcand : i.candidates env (effectiveLocale env locale) =
      i.fallbackLocales ++ ((i.FallbackLocales (effectiveLocale env locale)).getD []
        ++ [env.Default]) := by
    unfold I18n.candidates
    cases i.FallbackLocales (effectiveLocale env locale) <;> simp
  have hd : i.cacheStore.firstHit key [env.Default] = i.cacheStore.hit env.Default key := by
    rw [firstHit_cons]
    cases i.cacheStore.hit env.Default key <;> simp [CacheStore.firstHit]
  refine ⟨fun v h1 => ?_, fun v h1 h2 => ?_, fun v h1 h2 h3 => ?_⟩
  · refine (T_of_hit env i locale key args v ?_).1
    rw [firstHit_cons, hreq, hcand, firstHit_append, firstHit_append, hd]
    simp [h1]
  · refine (T_of_hit env i locale key args v ?_).1
    rw [firstHit_cons, hreq, hcand, firstHit_append, firstHit_append, hd]
    simp [h1, h2]
  · refine (T_of_hit env i locale key args v ?_).1
    rw [firstHit_cons, hreq, hcand, firstHit_append, firstHit_append, hd]
    simp [h1, h2, h3]

/-- C2 amended, at the example view: the explicit fallback `fr` wins over the
static fallback `es`. -/
theorem C2_explicit_then_static_then_default_witness :
    (exampleView.T exampleEnv "de" "k" []).value = "F" :=
  (C2_explicit_then_static_then_default exampleEnv exampleView "de" "k" []
    (by decide)).1 "F" (by decide)

/-- C3: a non-empty value stored under the requested (non-empty) locale is the
text `T` hands to the formatter, whatever the scope, the default value and the
fallbacks of the view are, and `T` then has no effect: no save call, no
cache write, index unchanged. -/
theorem C3_direct_hit_wins {α : Type} (env : Env α) (i : I18n) (locale key v : String)
    (args : List α) (t : Translation) (hl : locale ≠ "")
    (hc : i.cacheStore.values (cacheKey [locale, key]) = some t)
    (hv : t.Value = v) (hne : v ≠ "") :
    (i.T env locale key args).value = v ∧ (i.T env locale key args).events = [] ∧
      (i.T env locale key args).i18n = i := by
  apply T_of_hit
  have he : effectiveLocale env locale = locale := by simp [effectiveLocale, hl]
  rw [firstHit_cons, he]
  have : i.cacheStore.hit locale key = some v := by
    unfold CacheStore.hit
    rw [hc]
    simp [hv, hne]
  rw [this]
  rfl

/-- C3, at the example view with a scope, a default value and the requested
locale `fr`. -/
theorem C3_direct_hit_wins_witness :
    (((exampleView.Scope "user").Default "dflt").T exampleEnv "fr" "k" []).value = "F" ∧
      (((exampleView.Scope "user").Default "dflt").T exampleEnv "fr" "k" []).events = [] :=
  ⟨(C3_direct_hit_wins exampleEnv ((exampleView.Scope "user").Default "dflt") "fr" "k" "F" []
      ⟨"k", "fr", "F", none⟩ (by decide) (by decide) rfl (by decide)).1,
   (C3_direct_hit_wins exampleEnv ((exampleView.Scope "user").Default "dflt") "fr" "k" "F" []
      ⟨"k", "fr", "F", none⟩ (by decide) (by decide) rfl (by decide)).2.1⟩

theorem fallbacks_second_before_default {α : Type} (env : Env α) (i : I18n)
    (locale key L1 L2 v : String) (args : List α)
    (hreq : i.cacheStore.hit (effectiveLocale env locale) key = none)
    (h1 : i.cacheStore.hit L1 key = none) (h2 : i.cacheStore.hit L2 key = some v) :
    ((i.Fallbacks [L1, L2]).T env locale key args).value = v := by
  refine (T_of_hit env (i.Fallbacks [L1, L2]) locale key args v ?_).1
  have hc : (i.Fallbacks [L1, L2]).cacheStore = i.cacheStore := rfl
  have hcand : ∃ rest, (i.Fallbacks [L1, L2]).candidates env (effectiveLocale env locale) =
      L1 :: L2 :: rest := by
    unfold I18n.candidates I18n.Fallbacks
    cases i.FallbackLocales (effectiveLocale env locale) <;> simp
  obtain ⟨rest, hrest⟩ := hcand
  rw [hrest, hc, firstHit_cons, firstHit_cons, firstHit_cons, hreq, h1, h2]
  rfl

/-- While the slice of a view reads `[L1, L2]`, the view resolves through `L2`
before `Default`. -/
theorem sliced_second_before_default {α : Type} (env : Env α) (heap : Heap)
    (v : SlicedView) (locale key L1 L2 val : String) (args : List α)
    (hread : v.fallbackLocales.read heap = [L1, L2])
    (hreq : v.view.cacheStore.hit (effectiveLocale env locale) key = none)
    (h1 : v.view.cacheStore.hit L1 key = none) (h2 : v.view.cacheStore.hit L2 key = some val) :
    (v.T env heap locale key args).1.value = val := by
  unfold SlicedView.T SlicedView.current
  simp only []
  rw [hread]
  exact fallbacks_second_before_default env v.view locale key L1 L2 val args hreq h1 h2

/-- C4, the code at the failing input. Two views are made by `Fallbacks` from
slices of one backing array `[it, es, _]` of capacity 3: `Fallbacks(s[:1]...)`
and `Fallbacks(s...)`. The second view reads the chain `[it, es]`; neither
`de` nor `it` holds a value for `k`, `es` holds `S` and the default locale
holds `E`; called first, it resolves `(de, k)` to `S`, as C4 says. One call of
`T` on the first view, a plain hit without effect on the index, appends
`Default` in place into the shared array (i18n.go:128,138); after it the
second view reads `[it, en-US]` and resolves `(de, k)` to `E`, the value of
the default locale. -/
theorem C4_shared_slice_overwrites_chain :
    (wideView.current sharedHeap).fallbackLocales = ["it", "es"] ∧
      exampleCache.hit "de" "k" = none ∧ exampleCache.hit "it" "k" = none ∧
      exampleCache.hit "es" "k" = some "S" ∧
      exampleCache.hit exampleEnv.Default "k" = some "E" ∧
      (wideView.T exampleEnv sharedHeap "de" "k" []).1.value = "S" ∧
      (narrowView.T exampleEnv sharedHeap "fr" "k" []).1.events = [] ∧
      (wideView.current (narrowView.T exampleEnv sharedHeap "fr" "k" []).2).fallbackLocales =
        ["it", "en-US"] ∧
      (wideView.T exampleEnv (narrowView.T exampleEnv sharedHeap "fr" "k" []).2
        "de" "k" []).1.value = "E" := by
  decide

theorem string_eq_empty_of_length {s : String} (h : s.length = 0) : s = "" := by
  cases s with
  | mk d =>
    have hd : d.length = 0 := h
    have : d = [] := List.length_eq_zero.mp hd
    subst this
    rfl

theorem scoped_key_ne (scope key : String) (h : scope ≠ "") :
    String.intercalate "." [scope, key] ≠ key := by
  intro hc
  have h1 : String.intercalate "." [scope, key] = scope ++ "." ++ key := rfl
  rw [h1] at hc
  have hl := congrArg String.length hc
  simp only [String.length_append] at hl
  have h0 : scope.length = 0 := by omega
  exact h (string_eq_empty_of_length h0)

theorem scoped_cacheKey_ne (locale scope key : String) (h : scope ≠ "") :
    cacheKey [locale, String.intercalate "." [scope, key]] ≠ cacheKey [locale, key] := by
  intro hc
  have h1 : String.intercalate "." [scope, key] = scope ++ "." ++ key := rfl
  rw [cacheKey_pair, cacheKey_pair, h1] at hc
  have hl := congrArg String.length hc
  simp only [String.length_append] at hl
  have h0 : scope.length = 0 := by omega
  exact h (string_eq_empty_of_length h0)

/-- C5 as stated fails: on an index whose only backend is read-only (as the
YAML backend is) a miss without default resolves to the key, and the cache
still holds no entry for the pair afterwards. -/
theorem C5_counterexample :
    (New [readOnlyBackend []]).value = "" ∧
      (New [readOnlyBackend []]).cacheStore.firstHit "k"
        ("en" :: (New [readOnlyBackend []]).candidates exampleEnv "en") = none ∧
      ((New [readOnlyBackend []]).T exampleEnv "en" "k" []).value = "k" ∧
      ((New [readOnlyBackend []]).T exampleEnv "en" "k" []).i18n.cacheStore.values
        (cacheKey ["en", "k"]) = none := by
  decide

/-- C5 amended: on a miss in every probed locale with no default value, `T`
resolves to the raw key; if some backend accepts the save, the cache then
holds an entry with an empty value under the cache key of the local locale and
the scoped key, which is `cacheKey(locale, key)` on a view without scope; if
no backend accepts the save, the cache store is unchanged. -/
theorem C5_miss_without_default {α : Type} (env : Env α) (i : I18n) (locale key : String)
    (args : List α)
    (hmiss : i.cacheStore.firstHit key
      (effectiveLocale env locale :: i.candidates env (effectiveLocale env locale)) = none)
    (hval : i.value = "") :
    (i.T env locale key args).value = key ∧
    ((∃ b ∈ i.Backends,
        (b.SaveTranslation (i.autoCreated (effectiveLocale env locale) key)).1 = none) →
      (∃ e, (i.T env locale key args).i18n.cacheStore.values
          (cacheKey [effectiveLocale env locale, i.translationKey key]) = some e ∧
          e.Value = "") ∧
      (i.scope = "" → ∃ e, (i.T env locale key args).i18n.cacheStore.values
          (cacheKey [effectiveLocale env locale, key]) = some e ∧ e.Value = "")) ∧
    ((∀ b ∈ i.Backends,
        (b.SaveTranslation (i.autoCreated (effectiveLocale env locale) key)).1 ≠ none) →
      (i.T env locale key args).i18n.cacheStore = i.cacheStore) := by
  have hT := T_of_miss env i locale key args hmiss
  refine ⟨?_, fun hacc => ?_, fun hrej => ?_⟩
  · rw [T_value_of_miss env i locale key args hmiss]
    simp [hval]
  · have hcache : (i.T env locale key args).i18n.cacheStore =
        i.cacheStore.Set (cacheKey [effectiveLocale env locale, i.translationKey key])
          (i.autoCreated (effectiveLocale env locale) key) := by
      rw [hT]
      exact save_cache_accepted i _ hacc
    have hmain : ∃ e, (i.T env locale key args).i18n.cacheStore.values
        (cacheKey [effectiveLocale env locale, i.translationKey key]) = some e ∧
        e.Value = "" := by
      rw [hcache]
      refine ⟨(i.autoCreated (effectiveLocale env locale) key).stored, ?_, ?_⟩
      · simp [CacheStore.Set]
      · simp [Translation.stored, I18n.autoCreated, hval]
    refine ⟨hmain, fun hs => ?_⟩
    have hk : i.translationKey key = key := by simp [I18n.translationKey, hs]
    rw [hk] at hmain
    exact hmain
  · rw [hT]
    exact save_cache_rejected i _ hrej

/-- C5 amended, at an index with one accepting backend. -/
theorem C5_miss_without_default_witness :
    ((New [memoryBackend []]).T exampleEnv "en" "k" []).value = "k" ∧
      ∃ e, ((New [memoryBackend []]).T exampleEnv "en" "k" []).i18n.cacheStore.values
        (cacheKey [effectiveLocale exampleEnv "en", "k"]) = some e ∧ e.Value = "" :=
  ⟨(C5_miss_without_default exampleEnv (New [memoryBackend []]) "en" "k" []
      (by decide) (by decide)).1,
   ((C5_miss_without_default exampleEnv (New [memoryBackend []]) "en" "k" []
      (by decide) (by decide)).2.1 ⟨memoryBackend [], by simp [New, I18n.loadToCacheStore,
        memoryBackend, Backend.LoadTranslations], rfl⟩).2 (by decide)⟩

/-- C6: when `T` on the view `Scope(S)` misses in every probed locale, the
translation handed to `SaveTranslation` has `Locale` = the local locale (the
request, or `Default` for an empty request), `Value` = the default value of
the view and `Key` = `S + "." + K` for a non-empty `S` (then different from
`K`, and the cache entry under the unscoped key is untouched) or `K` for an
empty `S`; every effect of the call concerns that translation, and when a
backend accepts it the cache is the old one with that translation set. -/
theorem C6_scoped_key_is_persisted {α : Type} (env : Env α) (i : I18n) (S locale K : String)
    (args : List α)
    (hmiss : (i.Scope S).cacheStore.firstHit K
      (effectiveLocale env locale ::
        (i.Scope S).candidates env (effectiveLocale env locale)) = none) :
    ((i.Scope S).autoCreated (effectiveLocale env locale) K).Locale = effectiveLocale env locale ∧
    ((i.Scope S).autoCreated (effectiveLocale env locale) K).Value = i.value ∧
    (S ≠ "" → ((i.Scope S).autoCreated (effectiveLocale env locale) K).Key = S ++ "." ++ K ∧
      ((i.Scope S).autoCreated (effectiveLocale env locale) K).Key ≠ K ∧
      ((i.Scope S).T env locale K args).i18n.cacheStore.values
          (cacheKey [effectiveLocale env locale, K]) =
        i.cacheStore.values (cacheKey [effectiveLocale env locale, K])) ∧
    (S = "" → ((i.Scope S).autoCreated (effectiveLocale env locale) K).Key = K) ∧
    ((i.Scope S).T env locale K args).events.head? =
      some (Event.saveCall ((i.Scope S).autoCreated (effectiveLocale env locale) K)) ∧
    (∀ e ∈ ((i.Scope S).T env locale K args).events,
      e = Event.saveCall ((i.Scope S).autoCreated (effectiveLocale env locale) K) ∨
      (∃ idx, e = Event.backendSave idx
        ((i.Scope S).autoCreated (effectiveLocale env locale) K)) ∨
      e = Event.cacheSet (cacheKey [effectiveLocale env locale,
          ((i.Scope S).autoCreated (effectiveLocale env locale) K).Key])
        ((i.Scope S).autoCreated (effectiveLocale env locale) K)) ∧
    ((∃ b ∈ i.Backends,
        (b.SaveTranslation ((i.Scope S).autoCreated (effectiveLocale env locale) K)).1 = none) →
      ((i.Scope S).T env locale K args).i18n.cacheStore =
        i.cacheStore.Set (cacheKey [effectiveLocale env locale,
            ((i.Scope S).autoCreated (effectiveLocale env locale) K).Key])
          ((i.Scope S).autoCreated (effectiveLocale env locale) K)) := by
  have hT := T_of_miss env (i.Scope S) locale K args hmiss
  have hev : ((i.Scope S).T env locale K args).events =
      ((i.Scope S).SaveTranslation
        ((i.Scope S).autoCreated (effectiveLocale env locale) K)).events := by
    rw [hT]; rfl
  have hst : ((i.Scope S).T env locale K args).i18n =
      ((i.Scope S).SaveTranslation
        ((i.Scope S).autoCreated (effectiveLocale env locale) K)).i18n := by
    rw [hT]; rfl
  refine ⟨rfl, rfl, fun hS => ⟨?_, ?_, ?_⟩, fun hS => ?_, ?_, ?_, fun hacc => ?_⟩
  · simp [I18n.autoCreated, I18n.translationKey, I18n.Scope, hS]
    rfl
  · have : ((i.Scope S).autoCreated (effectiveLocale env locale) K).Key =
        String.intercalate "." [S, K] := by
      simp [I18n.autoCreated, I18n.translationKey, I18n.Scope, hS]
    rw [this]
    exact scoped_key_ne S K hS
  · rw [hst]
    have hk : ((i.Scope S).autoCreated (effectiveLocale env locale) K).Key =
        String.intercalate "." [S, K] := by
      simp [I18n.autoCreated, I18n.translationKey, I18n.Scope, hS]
    rcases save_cache_cases (i.Scope S)
      ((i.Scope S).autoCreated (effectiveLocale env locale) K) with h | h
    · rw [h]; rfl
    · rw [h, hk]
      have hne := scoped_cacheKey_ne (effectiveLocale env locale) S K hS
      have hloc : ((i.Scope S).autoCreated (effectiveLocale env locale) K).Locale =
          effectiveLocale env locale := rfl
      simp only [CacheStore.Set, hloc]
      rw [if_neg (fun hc => hne hc.symm)]
      rfl
  · simp [I18n.autoCreated, I18n.translationKey, I18n.Scope, hS]
  · rw [hev]; exact save_events_head _ _
  · rw [hev]; exact save_events _ _
  · rw [hst]; exact save_cache_accepted (i.Scope S) _ hacc

/-- C6, at the scope `user` and the key `name` on an index with one accepting
backend: the saved and cached key is `user.name`. -/
theorem C6_scoped_key_is_persisted_witness :
    (((New [memoryBackend []]).Scope "user").autoCreated
        (effectiveLocale exampleEnv "en") "name").Key = "user" ++ "." ++ "name" ∧
      (((New [memoryBackend []]).Scope "user").T exampleEnv "en" "name" []).events.head? =
        some (Event.saveCall (((New [memoryBackend []]).Scope "user").autoCreated
          (effectiveLocale exampleEnv "en") "name")) :=
  ⟨((C6_scoped_key_is_persisted exampleEnv (New [memoryBackend []]) "user" "en" "name" []
      (by decide)).2.2.1 (by decide)).1,
   (C6_scoped_key_is_persisted exampleEnv (New [memoryBackend []]) "user" "en" "name" []
      (by decide)).2.2.2.2.1⟩

/-- C7: the string returned by `T` does not depend on the scope of the view. -/
theorem C7_text_independent_of_scope {α : Type} (env : Env α) (i : I18n)
    (S1 S2 locale key : String) (args : List α) :
    ((i.Scope S1).T env locale key args).text = ((i.Scope S2).T env locale key args).text := by
  have hv : ((i.Scope S1).T env locale key args).value =
      ((i.Scope S2).T env locale key args).value := by
    cases h : i.cacheStore.firstHit key
        (effectiveLocale env locale :: i.candidates env (effectiveLocale env locale)) with
    | some v =>
      rw [(T_of_hit env (i.Scope S1) locale key args v h).1,
        (T_of_hit env (i.Scope S2) locale key args v h).1]
    | none =>
      rw [T_value_of_miss env (i.Scope S1) locale key args h,
        T_value_of_miss env (i.Scope S2) locale key args h]
      rfl
  rw [T_text, T_text, hv]

theorem hit_congr_of_sameUpToEmpty {c1 c2 : CacheStore} (h : sameUpToEmpty c1 c2)
    (l key : String) : c1.hit l key = c2.hit l key := by
  unfold CacheStore.hit
  rcases h (cacheKey [l, key]) with h | ⟨h1, t, h2, ht⟩ | ⟨h1, t, h2, ht⟩
  · rw [h]
  · rw [h1, h2]; simp [ht]
  · rw [h1, h2]; simp [ht]

theorem firstHit_congr_of_sameUpToEmpty {c1 c2 : CacheStore} (h : sameUpToEmpty c1 c2)
    (key : String) (ls : List String) : c1.firstHit key ls = c2.firstHit key ls := by
  unfold CacheStore.firstHit
  congr 1
  funext l
  exact hit_congr_of_sameUpToEmpty h l key

theorem save_events_cache_irrelevant (i : I18n) (c : CacheStore) (t : Translation) :
    (I18n.SaveTranslation { i with cacheStore := c } t).events = (i.SaveTranslation t).events := by
  unfold I18n.SaveTranslation
  simp only []
  split <;> rfl

/-- C8: on two cache stores that differ only in empty-valued entries against
no entry, `T` returns the same string, resolves the same text and has the
same effects (the same `SaveTranslation` call with the same backend calls,
or none). -/
theorem C8_empty_value_equals_missing {α : Type} (env : Env α) (i : I18n)
    (c1 c2 : CacheStore) (locale key : String) (args : List α)
    (h : sameUpToEmpty c1 c2) :
    (I18n.T env { i with cacheStore := c1 } locale key args).text =
        (I18n.T env { i with cacheStore := c2 } locale key args).text ∧
      (I18n.T env { i with cacheStore := c1 } locale key args).value =
        (I18n.T env { i with cacheStore := c2 } locale key args).value ∧
      (I18n.T env { i with cacheStore := c1 } locale key args).events =
        (I18n.T env { i with cacheStore := c2 } locale key args).events := by
  have hf := firstHit_congr_of_sameUpToEmpty h key
    (effectiveLocale env locale :: i.candidates env (effectiveLocale env locale))
  have hmain : (I18n.T env { i with cacheStore := c1 } locale key args).value =
        (I18n.T env { i with cacheStore := c2 } locale key args).value ∧
      (I18n.T env { i with cacheStore := c1 } locale key args).events =
        (I18n.T env { i with cacheStore := c2 } locale key args).events := by
    cases h1 : c1.firstHit key
        (effectiveLocale env locale :: i.candidates env (effectiveLocale env locale)) with
    | some v =>
      have h2 := hf ▸ h1
      have r1 := T_of_hit env { i with cacheStore := c1 } locale key args v h1
      have r2 := T_of_hit env { i with cacheStore := c2 } locale key args v h2
      exact ⟨by rw [r1.1, r2.1], by rw [r1.2.1, r2.2.1]⟩
    | none =>
      have h2 := hf ▸ h1
      have r1 := T_of_miss env { i with cacheStore := c1 } locale key args h1
      have r2 := T_of_miss env { i with cacheStore := c2 } locale key args h2
      refine ⟨?_, ?_⟩
      · rw [r1, r2]; rfl
      · rw [r1, r2]
        show (I18n.SaveTranslation { i with cacheStore := c1 } _).events =
          (I18n.SaveTranslation { i with cacheStore := c2 } _).events
        rw [save_events_cache_irrelevant i c1, save_events_cache_irrelevant i c2]
        rfl
  refine ⟨?_, hmain.1, hmain.2⟩
  rw [T_text, T_text, hmain.1]

/-- C8, at the example cache against the same cache with an empty-valued entry
under `de/k`. -/
theorem C8_empty_value_equals_missing_witness :
    (I18n.T exampleEnv { exampleView with
        cacheStore := exampleCache.Set "de/k" ⟨"k", "de", "", none⟩ } "de" "k" []).text =
      (I18n.T exampleEnv { exampleView with cacheStore := exampleCache } "de" "k" []).text :=
  (C8_empty_value_equals_missing exampleEnv exampleView
    (exampleCache.Set "de/k" ⟨"k", "de", "", none⟩) exampleCache "de" "k" []
    (by
      intro k
      by_cases hk : k = "de/k"
      · right; right
        subst hk
        exact ⟨by decide, ⟨"k", "de", "", none⟩, by decide, rfl⟩
      · left
        simp [CacheStore.Set, hk])).1

theorem hit_set_of_miss {c : CacheStore} {W l key v : String} {tr : Translation}
    (hnew : (c.Set W tr).hit l key = some v) (hold : c.hit l key = none) : v = tr.Value := by
  unfold CacheStore.hit CacheStore.Set at hnew
  unfold CacheStore.hit at hold
  by_cases hk : cacheKey [l, key] = W
  · simp [hk, Translation.stored] at hnew
    exact hnew.2.symm
  · simp only [hk, if_false] at hnew
    rw [hnew] at hold
    simp at hold

/-- C9: two successive calls of `T` with the same arguments return the same
string, also when the first call auto-created an entry. -/
theorem C9_second_call_same_text {α : Type} (env : Env α) (i : I18n) (locale key : String)
    (args : List α) :
    ((i.T env locale key args).i18n.T env locale key args).text =
      (i.T env locale key args).text := by
  cases h : i.cacheStore.firstHit key
      (effectiveLocale env locale :: i.candidates env (effectiveLocale env locale)) with
  | some v =>
    rw [(T_of_hit env i locale key args v h).2.2]
  | none =>
    have hT := T_of_miss env i locale key args h
    have hst : (i.T env locale key args).i18n =
        (i.SaveTranslation (i.autoCreated (effectiveLocale env locale) key)).i18n := by
      rw [hT]; rfl
    have hview := save_view i (i.autoCreated (effectiveLocale env locale) key)
    have hcand : (i.T env locale key args).i18n.candidates env (effectiveLocale env locale) =
        i.candidates env (effectiveLocale env locale) := by
      unfold I18n.candidates
      rw [hst, hview.2.2.1, hview.2.2.2]
    have hval : (i.T env locale key args).i18n.value = i.value := by
      rw [hst, hview.2.1]
    have hv1 := T_value_of_miss env i locale key args h
    have hv : ((i.T env locale key args).i18n.T env locale key args).value =
        (i.T env locale key args).value := by
      cases h2 : (i.T env locale key args).i18n.cacheStore.firstHit key
          (effectiveLocale env locale ::
            (i.T env locale key args).i18n.candidates env (effectiveLocale env locale)) with
      | none =>
        rw [T_value_of_miss env _ locale key args h2, hv1, hval]
      | some v =>
        rw [(T_of_hit env _ locale key args v h2).1, hv1]
        rw [hcand] at h2
        unfold CacheStore.firstHit at h2
        obtain ⟨l, hl, hlv⟩ := List.exists_of_findSome?_eq_some h2
        have hne := hit_ne_empty hlv
        have hold := firstHit_eq_none h l hl
        rw [hst] at hlv
        rcases save_cache_cases i (i.autoCreated (effectiveLocale env locale) key) with hc | hc
        · rw [hc, hold] at hlv
          simp at hlv
        · rw [hc] at hlv
          have := hit_set_of_miss hlv hold
          have hvv : v = i.value := this
          rw [← hvv]
          simp [hne]
    rw [T_text, T_text env i, hv]

/-- C10 as stated fails: on an index with one accepting backend and no default
value, the first call of `T` caches an entry with an empty value; the second
call reads it as a miss, calls the backend's `SaveTranslation` again and
writes the cache again. -/
theorem C10_counterexample :
    (((New [memoryBackend []]).T exampleEnv "en" "k" []).i18n.T exampleEnv "en" "k" []).events =
      [Event.saveCall ⟨"k", "en", "", some 0⟩, Event.backendSave 0 ⟨"k", "en", "", some 0⟩,
       Event.cacheSet "en/k" ⟨"k", "en", "", some 0⟩] := by
  decide

/-- C10 amended: the second of two successive calls of `T` has no effect (no
save call, no backend call, no cache write, index unchanged) when the first
call found a non-empty stored value, or when the first call auto-created, on a
view without scope and with a non-empty default value, an entry that a backend
accepted. -/
theorem C10_second_call_no_write {α : Type} (env : Env α) (i : I18n) (locale key : String)
    (args : List α)
    (h : i.cacheStore.firstHit key
          (effectiveLocale env locale :: i.candidates env (effectiveLocale env locale)) ≠ none ∨
        (i.scope = "" ∧ i.value ≠ "" ∧ ∃ b ∈ i.Backends,
          (b.SaveTranslation (i.autoCreated (effectiveLocale env locale) key)).1 = none)) :
    ((i.T env locale key args).i18n.T env locale key args).events = [] ∧
      ((i.T env locale key args).i18n.T env locale key args).i18n =
        (i.T env locale key args).i18n := by
  cases h1 : i.cacheStore.firstHit key
      (effectiveLocale env locale :: i.candidates env (effectiveLocale env locale)) with
  | some v =>
    have r := T_of_hit env i locale key args v h1
    rw [r.2.2]
    exact r.2
  | none =>
    rcases h with h | ⟨hs, hv, hacc⟩
    · exact absurd h1 h
    · have hT := T_of_miss env i locale key args h1
      have hst : (i.T env locale key args).i18n =
          (i.SaveTranslation (i.autoCreated (effectiveLocale env locale) key)).i18n := by
        rw [hT]; rfl
      have hcache : (i.T env locale key args).i18n.cacheStore =
          i.cacheStore.Set (cacheKey [effectiveLocale env locale, key])
            (i.autoCreated (effectiveLocale env locale) key) := by
        rw [hst, save_cache_accepted i _ hacc]
        simp [I18n.autoCreated, I18n.translationKey, hs]
      have hhit : (i.T env locale key args).i18n.cacheStore.hit
          (effectiveLocale env locale) key = some i.value := by
        rw [hcache]
        simp [CacheStore.hit, CacheStore.Set, Translation.stored, I18n.autoCreated, hv]
      have hfirst : (i.T env locale key args).i18n.cacheStore.firstHit key
          (effectiveLocale env locale ::
            (i.T env locale key args).i18n.candidates env (effectiveLocale env locale)) =
          some i.value := by
        rw [firstHit_cons, hhit]; rfl
      exact (T_of_hit env _ locale key args i.value hfirst).2

/-- C10 amended, at an index with one accepting backend and the default value
`Hello`: the second call has no effect. -/
theorem C10_second_call_no_write_witness :
    ((((New [memoryBackend []]).Default "Hello").T exampleEnv "en" "k" []).i18n.T
      exampleEnv "en" "k" []).events = [] :=
  (C10_second_call_no_write exampleEnv ((New [memoryBackend []]).Default "Hello") "en" "k" []
    (Or.inr ⟨by decide, by decide, memoryBackend [],
      by simp [New, I18n.loadToCacheStore, I18n.Default, memoryBackend,
        Backend.LoadTranslations], rfl⟩)).1

/-! ## Properties of save and delete -/

theorem range_shift_events (t : Translation) (n m : Nat) :
    Event.backendSave n t :: (List.range m).map (fun k => Event.backendSave (n + 1 + k) t) =
      (List.range (m + 1)).map (fun k => Event.backendSave (n + k) t) := by
  rw [List.range_succ_eq_map]
  simp only [List.map_cons, List.map_map, Nat.add_zero]
  congr 1
  apply List.map_congr_left
  intro k _
  simp only [Function.comp]
  congr 1
  omega

theorem saveLoop_of_first (t : Translation) (bs : List Backend) :
    ∀ (n j : Nat), firstAccepting t bs = some j →
      (saveLoop t n bs).1 = true ∧
      (saveLoop t n bs).2.2 = (List.range (j + 1)).map (fun k => Event.backendSave (n + k) t) := by
  induction bs with
  | nil => intro n j h; simp [firstAccepting] at h
  | cons b rest ih =>
    intro n j h
    unfold firstAccepting at h
    unfold saveLoop
    by_cases hb : (b.SaveTranslation t).1 = none
    · simp only [hb, if_true] at h ⊢
      have hj : j = 0 := by simpa using h.symm
      subst hj
      exact ⟨trivial, by simp [List.range_succ]⟩
    · simp only [hb, if_false] at h ⊢
      cases hr : firstAccepting t rest with
      | none => simp [hr] at h
      | some j' =>
        simp [hr] at h
        subst h
        have := ih (n + 1) j' hr
        refine ⟨this.1, ?_⟩
        show Event.backendSave n t :: (saveLoop t (n + 1) rest).2.2 = _
        rw [this.2]
        exact range_shift_events t n (j' + 1)

theorem saveLoop_of_none (t : Translation) (bs : List Backend) :
    ∀ n : Nat, firstAccepting t bs = none →
      (saveLoop t n bs).1 = false ∧
      (saveLoop t n bs).2.2 =
        (List.range bs.length).map (fun k => Event.backendSave (n + k) t) := by
  induction bs with
  | nil => intro n _; simp [saveLoop]
  | cons b rest ih =>
    intro n h
    unfold firstAccepting at h
    unfold saveLoop
    by_cases hb : (b.SaveTranslation t).1 = none
    · simp [hb] at h
    · simp only [hb, if_false] at h ⊢
      have hr : firstAccepting t rest = none := by
        cases hr : firstAccepting t rest with
        | none => rfl
        | some j' => simp [hr] at h
      have := ih (n + 1) hr
      refine ⟨this.1, ?_⟩
      show Event.backendSave n t :: (saveLoop t (n + 1) rest).2.2 = _
      rw [this.2, List.length_cons]
      exact range_shift_events t n rest.length

theorem firstAccepting_some (t : Translation) (bs : List Backend) :
    ∀ j : Nat, firstAccepting t bs = some j →
      (∃ b, bs[j]? = some b ∧ (b.SaveTranslation t).1 = none) ∧
      ∀ j' b', j' < j → bs[j']? = some b' → (b'.SaveTranslation t).1 ≠ none := by
  induction bs with
  | nil => intro j h; simp [firstAccepting] at h
  | cons b rest ih =>
    intro j h
    unfold firstAccepting at h
    by_cases hb : (b.SaveTranslation t).1 = none
    · simp only [hb, if_true] at h
      have hj : j = 0 := by simpa using h.symm
      subst hj
      exact ⟨⟨b, by simp, hb⟩, fun j' b' hj' _ => absurd hj' (Nat.not_lt_zero j')⟩
    · simp only [hb, if_false] at h
      cases hr : firstAccepting t rest with
      | none => simp [hr] at h
      | some j' =>
        simp [hr] at h
        subst h
        obtain ⟨⟨b0, hb0, hacc⟩, hmin⟩ := ih j' hr
        refine ⟨⟨b0, by simpa using hb0, hacc⟩, ?_⟩
        intro k b' hk hb'
        cases k with
        | zero =>
          simp at hb'
          subst hb'
          exact hb
        | succ k =>
          simp at hb'
          exact hmin k b' (by omega) hb'

theorem firstAccepting_none (t : Translation) (bs : List Backend) :
    firstAccepting t bs = none ↔ ∀ b ∈ bs, (b.SaveTranslation t).1 ≠ none := by
  induction bs with
  | nil => simp [firstAccepting]
  | cons b rest ih =>
    unfold firstAccepting
    by_cases hb : (b.SaveTranslation t).1 = none
    · simp [hb]
    · simp [hb, ih]

theorem saveLoop_backends_of_first (t : Translation) (bs : List Backend) :
    ∀ (n j : Nat), firstAccepting t bs = some j →
      (saveLoop t n bs).2.1 =
        (bs.take (j + 1)).map (fun b => (b.SaveTranslation t).2) ++ bs.drop (j + 1) := by
  induction bs with
  | nil => intro n j h; simp [firstAccepting] at h
  | cons b rest ih =>
    intro n j h
    unfold firstAccepting at h
    unfold saveLoop
    by_cases hb : (b.SaveTranslation t).1 = none
    · simp only [hb, if_true] at h ⊢
      have hj : j = 0 := by simpa using h.symm
      subst hj
      simp
    · simp only [hb, if_false] at h ⊢
      cases hr : firstAccepting t rest with
      | none => simp [hr] at h
      | some j' =>
        simp [hr] at h
        subst h
        show (b.SaveTranslation t).2 :: (saveLoop t (n + 1) rest).2.1 = _
        rw [ih (n + 1) j' hr]
        simp

theorem saveLoop_backends_of_none (t : Translation) (bs : List Backend) :
    ∀ n : Nat, firstAccepting t bs = none →
      (saveLoop t n bs).2.1 = bs.map (fun b => (b.SaveTranslation t).2) := by
  induction bs with
  | nil => intro n _; simp [saveLoop]
  | cons b rest ih =>
    intro n h
    unfold firstAccepting at h
    unfold saveLoop
    by_cases hb : (b.SaveTranslation t).1 = none
    · simp [hb] at h
    · simp only [hb, if_false] at h ⊢
      have hr : firstAccepting t rest = none := by
        cases hr : firstAccepting t rest with
        | none => rfl
        | some j' => simp [hr] at h
      show (b.SaveTranslation t).2 :: (saveLoop t (n + 1) rest).2.1 = _
      rw [ih (n + 1) hr]
      simp

theorem save_backends (i : I18n) (t : Translation) :
    (i.SaveTranslation t).i18n.Backends = (saveLoop t 0 i.Backends).2.1 := by
  unfold I18n.SaveTranslation
  split <;> rfl

/-- C11: `SaveTranslation` succeeds exactly when some backend accepts the
write. With `j` the first accepting position, it returns `nil`; the backends
`0..j` have each received the save (each is in the state its own
`SaveTranslation` leaves), in order, and every later backend is untouched; the
cache then holds the saved translation (as serialised) under its cache key.
When no backend accepts (also when there is none), every backend has received
the save, the error is "failed to save translation" and the cache store is
unchanged. -/
theorem C11_save_first_accepting_backend (i : I18n) (t : Translation) :
    ((i.SaveTranslation t).err = none ↔ ∃ b ∈ i.Backends, (b.SaveTranslation t).1 = none) ∧
    (∀ j, firstAccepting t i.Backends = some j →
      ((∃ b, i.Backends[j]? = some b ∧ (b.SaveTranslation t).1 = none) ∧
        ∀ j' b', j' < j → i.Backends[j']? = some b' → (b'.SaveTranslation t).1 ≠ none) ∧
      (i.SaveTranslation t).err = none ∧
      (i.SaveTranslation t).i18n.cacheStore.values (cacheKey [t.Locale, t.Key]) =
        some t.stored ∧
      t.stored.Key = t.Key ∧ t.stored.Locale = t.Locale ∧ t.stored.Value = t.Value ∧
      (i.SaveTranslation t).events =
        Event.saveCall t :: (List.range (j + 1)).map (fun k => Event.backendSave k t)
          ++ [Event.cacheSet (cacheKey [t.Locale, t.Key]) t] ∧
      (i.SaveTranslation t).i18n.Backends =
        (i.Backends.take (j + 1)).map (fun b => (b.SaveTranslation t).2)
          ++ i.Backends.drop (j + 1)) ∧
    ((∀ b ∈ i.Backends, (b.SaveTranslation t).1 ≠ none) →
      (i.SaveTranslation t).err = some "failed to save translation" ∧
      (i.SaveTranslation t).i18n.cacheStore = i.cacheStore ∧
      (i.SaveTranslation t).events =
        Event.saveCall t ::
          (List.range i.Backends.length).map (fun k => Event.backendSave k t) ∧
      (i.SaveTranslation t).i18n.Backends =
        i.Backends.map (fun b => (b.SaveTranslation t).2)) := by
  refine ⟨?_, fun j hj => ?_, fun hrej => ?_⟩
  · rw [← saveLoop_accepts t i.Backends 0]
    unfold I18n.SaveTranslation
    split <;> simp_all
  · have hl := saveLoop_of_first t i.Backends 0 j hj
    simp only [Nat.zero_add] at hl
    refine ⟨firstAccepting_some t i.Backends j hj, ?_, ?_, rfl, rfl, rfl, ?_, ?_⟩
    · simp [I18n.SaveTranslation, hl.1]
    · simp [I18n.SaveTranslation, hl.1, I18n.AddTranslation, CacheStore.Set]
    · simp [I18n.SaveTranslation, hl.1, hl.2]
    · rw [save_backends, saveLoop_backends_of_first t i.Backends 0 j hj]
  · have hn := (firstAccepting_none t i.Backends).mpr hrej
    have hl := saveLoop_of_none t i.Backends 0 hn
    simp only [Nat.zero_add] at hl
    refine ⟨?_, ?_, ?_, ?_⟩
    · simp [I18n.SaveTranslation, hl.1]
    · simp [I18n.SaveTranslation, hl.1]
    · simp [I18n.SaveTranslation, hl.1, hl.2]
    · rw [save_backends, saveLoop_backends_of_none t i.Backends 0 hn]

/-- C11, at a read-only backend followed by two in-memory backends: the save
succeeds, the second backend holds the translation afterwards and the third
one was not touched. -/
theorem C11_save_first_accepting_backend_witness :
    (I18n.SaveTranslation (New [readOnlyBackend [], memoryBackend [], memoryBackend []])
        ⟨"k", "en", "V", none⟩).err = none ∧
      (I18n.SaveTranslation (New [readOnlyBackend [], memoryBackend [], memoryBackend []])
        ⟨"k", "en", "V", none⟩).i18n.Backends.map Backend.LoadTranslations =
        [[], [⟨"k", "en", "V", none⟩], []] :=
  ⟨((C11_save_first_accepting_backend
      (New [readOnlyBackend [], memoryBackend [], memoryBackend []])
      ⟨"k", "en", "V", none⟩).2.1 1 (by decide)).2.1,
   by
    rw [((C11_save_first_accepting_backend
      (New [readOnlyBackend [], memoryBackend [], memoryBackend []])
      ⟨"k", "en", "V", none⟩).2.1 1 (by decide)).2.2.2.2.2.2.2]
    decide⟩

theorem deleteLoop_events (t : Translation) (bs : List Backend) :
    ∀ n : Nat, (deleteLoop t n bs).2 =
      (List.range bs.length).map (fun k => Event.backendDelete (n + k) t) := by
  induction bs with
  | nil => intro n; simp [deleteLoop]
  | cons b rest ih =>
    intro n
    unfold deleteLoop
    simp only [List.length_cons]
    rw [ih (n + 1), List.range_succ_eq_map]
    simp only [List.map_cons, List.map_map, Nat.add_zero]
    congr 1
    apply List.map_congr_left
    intro k _
    simp only [Function.comp]
    congr 1
    omega

theorem deleteLoop_backends (t : Translation) (bs : List Backend) :
    ∀ n : Nat, (deleteLoop t n bs).1 = bs.map (fun b => (b.DeleteTranslation t).2) := by
  induction bs with
  | nil => intro n; simp [deleteLoop]
  | cons b rest ih =>
    intro n
    unfold deleteLoop
    show (b.DeleteTranslation t).2 :: (deleteLoop t (n + 1) rest).1 = _
    rw [ih (n + 1)]
    simp

/-- C12: `DeleteTranslation` asks every backend to delete, in order and
whatever the earlier ones answered: afterwards every backend is in the state
its own `DeleteTranslation` leaves. It then deletes the cache entry: the
cache store afterwards is the one its `Delete` leaves, the error returned is
the one `Delete` reports and does not depend on the backends, the entry under
the cache key of the translation is gone and every other entry is
unchanged. -/
theorem C12_delete_asks_every_backend (i : I18n) (t : Translation) :
    (i.DeleteTranslation t).events =
        (List.range i.Backends.length).map (fun k => Event.backendDelete k t)
          ++ [Event.cacheDelete (cacheKey [t.Locale, t.Key])] ∧
      (i.DeleteTranslation t).i18n.Backends =
        i.Backends.map (fun b => (b.DeleteTranslation t).2) ∧
      (i.DeleteTranslation t).err = i.cacheStore.deleteError (cacheKey [t.Locale, t.Key]) ∧
      (∀ bs, (I18n.DeleteTranslation { i with Backends := bs } t).err =
        (i.DeleteTranslation t).err) ∧
      (i.DeleteTranslation t).i18n.cacheStore =
        (i.cacheStore.Delete (cacheKey [t.Locale, t.Key])).2 ∧
      (i.DeleteTranslation t).i18n.cacheStore.values (cacheKey [t.Locale, t.Key]) = none ∧
      ∀ K, K ≠ cacheKey [t.Locale, t.Key] →
        (i.DeleteTranslation t).i18n.cacheStore.values K = i.cacheStore.values K := by
  refine ⟨?_, ?_, rfl, fun bs => rfl, rfl, ?_, fun K hK => ?_⟩
  · unfold I18n.DeleteTranslation
    simp only []
    rw [deleteLoop_events]
    simp
  · unfold I18n.DeleteTranslation
    simp only []
    rw [deleteLoop_backends]
  · simp [I18n.DeleteTranslation, CacheStore.Delete]
  · simp [I18n.DeleteTranslation, CacheStore.Delete, hK]

/-- C12, at a read-only backend (whose delete fails with "not implemented")
followed by an in-memory backend, on a cache store whose `Delete` reports
"unavailable": the in-memory backend has lost the translation although the
backend before it failed, and the error returned is the cache store's. -/
theorem C12_delete_asks_every_backend_witness :
    (failingDeleteView.DeleteTranslation ⟨"k", "en", "V", none⟩).err = some "unavailable" ∧
      (failingDeleteView.DeleteTranslation ⟨"k", "en", "V", none⟩).i18n.Backends.map
        Backend.LoadTranslations = [[⟨"k", "en", "V", none⟩], [⟨"j", "en", "W", none⟩]] ∧
      (I18n.DeleteTranslation (New [readOnlyBackend [⟨"k", "en", "V", none⟩]])
        ⟨"k", "en", "V", none⟩).err = none :=
  ⟨((C12_delete_asks_every_backend failingDeleteView ⟨"k", "en", "V", none⟩).2.2.1).trans
      (by decide),
   by
    rw [(C12_delete_asks_every_backend failingDeleteView ⟨"k", "en", "V", none⟩).2.1]
    decide,
   ((C12_delete_asks_every_backend (New [readOnlyBackend [⟨"k", "en", "V", none⟩]])
      ⟨"k", "en", "V", none⟩).2.2.1).trans (by decide)⟩

theorem firstHit_none_of_all {c : CacheStore} {key : String} {ls : List String}
    (h : ∀ l ∈ ls, c.hit l key = none) : c.firstHit key ls = none := by
  induction ls with
  | nil => rfl
  | cons a rest ih =>
    rw [firstHit_cons, h a (List.mem_cons_self a rest)]
    exact ih (fun l hl => h l (List.mem_cons_of_mem a hl))

/-- C13 as stated fails: after deleting the stored translation `(es, k)` from
the example view, `T(es, k)` finds the value of the explicit fallback `fr` and
has no effect: no auto-creation, no `SaveTranslation` call. -/
theorem C13_counterexample :
    exampleView.cacheStore.values (cacheKey ["es", "k"]) = some ⟨"k", "es", "S", none⟩ ∧
      (((exampleView.DeleteTranslation ⟨"k", "es", "S", none⟩).i18n).T
        exampleEnv "es" "k" []).value = "F" ∧
      (((exampleView.DeleteTranslation ⟨"k", "es", "S", none⟩).i18n).T
        exampleEnv "es" "k" []).events = [] := by
  decide

/-- C13 amended: after `DeleteTranslation(t)`, when no other probed locale holds
a non-empty value for the key, `T(t.Locale, t.Key)` is a fresh miss: it
synthesises a new translation carrying the default value of the view, hands
it to `SaveTranslation`, and resolves to that default value, or to the key
when the default value is empty. -/
theorem C13_delete_then_fresh_miss {α : Type} (env : Env α) (i : I18n) (t : Translation)
    (args : List α)
    (hothers : ∀ l ∈ effectiveLocale env t.Locale ::
        i.candidates env (effectiveLocale env t.Locale),
      cacheKey [l, t.Key] ≠ cacheKey [t.Locale, t.Key] → i.cacheStore.hit l t.Key = none) :
    ((i.DeleteTranslation t).i18n.T env t.Locale t.Key args).events.head? =
        some (Event.saveCall
          ((i.DeleteTranslation t).i18n.autoCreated (effectiveLocale env t.Locale) t.Key)) ∧
      ((i.DeleteTranslation t).i18n.autoCreated (effectiveLocale env t.Locale) t.Key).Value =
        i.value ∧
      ((i.DeleteTranslation t).i18n.T env t.Locale t.Key args).value =
        (if i.value ≠ "" then i.value else t.Key) := by
  have hcand : (i.DeleteTranslation t).i18n.candidates env (effectiveLocale env t.Locale) =
      i.candidates env (effectiveLocale env t.Locale) := rfl
  have hmiss : (i.DeleteTranslation t).i18n.cacheStore.firstHit t.Key
      (effectiveLocale env t.Locale ::
        (i.DeleteTranslation t).i18n.candidates env (effectiveLocale env t.Locale)) = none := by
    rw [hcand]
    apply firstHit_none_of_all
    intro l hl
    by_cases hk : cacheKey [l, t.Key] = cacheKey [t.Locale, t.Key]
    · simp [CacheStore.hit, I18n.DeleteTranslation, CacheStore.Delete, hk]
    · have := hothers l hl hk
      unfold CacheStore.hit at this ⊢
      simpa [I18n.DeleteTranslation, CacheStore.Delete, hk] using this
  refine ⟨?_, rfl, ?_⟩
  · rw [T_of_miss env _ t.Locale t.Key args hmiss]
    exact save_events_head _ _
  · rw [T_value_of_miss env _ t.Locale t.Key args hmiss]
    rfl

/-- C13 amended, at an index with one accepting backend that returns `(en, k)`:
after the deletion `T(en, k)` resolves to the key and calls `SaveTranslation`. -/
theorem C13_delete_then_fresh_miss_witness :
    (((New [memoryBackend [⟨"k", "en", "V", none⟩]]).DeleteTranslation
        ⟨"k", "en", "V", none⟩).i18n.T exampleEnv "en" "k" []).value = "k" :=
  (C13_delete_then_fresh_miss exampleEnv (New [memoryBackend [⟨"k", "en", "V", none⟩]])
    ⟨"k", "en", "V", none⟩ [] (by decide)).2.2

/-! ## Properties of formatting, views and cache keys -/

theorem T_is_finish {α : Type} (env : Env α) (i : I18n) (locale key : String)
    (args : List α) :
    ∃ tr i1 ev, i.T env locale key args =
      finish env (effectiveLocale env locale) key args tr i1 ev := by
  unfold I18n.T
  simp only []
  split_ifs <;> exact ⟨_, _, _, rfl⟩

theorem T_value_of_translation {α : Type} (env : Env α) (i : I18n) (locale key : String)
    (args : List α) :
    (i.T env locale key args).value =
      if (i.T env locale key args).translation.Value ≠ "" then
        (i.T env locale key args).translation.Value
      else key := by
  obtain ⟨tr, i1, ev, h⟩ := T_is_finish env i locale key args
  rw [h]
  rfl

/-- C14: `T` always returns. The text `r` it resolves is the value of the found
or synthesised translation if that value is non-empty and the raw key
otherwise, that is the first non-empty value found along the probed locales,
else the default value of the view, else the key; `T` returns the formatter's
output on `(locale, r, args)` when the formatter succeeds and `r` unchanged
when it fails. -/
theorem C14_format_or_resolved_text {α : Type} (env : Env α) (i : I18n) (locale key : String)
    (args : List α) :
    (i.T env locale key args).value =
        (if (i.T env locale key args).translation.Value ≠ "" then
          (i.T env locale key args).translation.Value
        else key) ∧
      (i.T env locale key args).value =
        (match i.cacheStore.firstHit key (effectiveLocale env locale ::
            i.candidates env (effectiveLocale env locale)) with
          | some v => v
          | none => if i.value ≠ "" then i.value else key) ∧
      (∀ str, env.Parse (effectiveLocale env locale) (i.T env locale key args).value args
          = some str → (i.T env locale key args).text = str) ∧
      (env.Parse (effectiveLocale env locale) (i.T env locale key args).value args = none →
        (i.T env locale key args).text = (i.T env locale key args).value) := by
  refine ⟨T_value_of_translation env i locale key args, ?_, fun str h => ?_, fun h => ?_⟩
  · cases h : i.cacheStore.firstHit key (effectiveLocale env locale ::
        i.candidates env (effectiveLocale env locale)) with
    | some v => exact (T_of_hit env i locale key args v h).1
    | none => exact T_value_of_miss env i locale key args h
  · rw [T_text, h]
  · rw [T_text, h]

/-- C14, at the stored pattern `Hello {0}` and a formatter that rejects the
arguments: `T` returns the pattern unchanged. -/
theorem C14_format_or_resolved_text_witness :
    (greetView.T rejectingEnv "en" "greet" ["World", "extra"]).text = "Hello {0}" :=
  ((C14_format_or_resolved_text rejectingEnv greetView "en" "greet"
    ["World", "extra"]).2.2.2 rfl).trans (by decide)

/-- C15: `T` with an empty locale is `T` with the locale `Default`: the same
string, the same effects and the same index afterwards; on a miss the
auto-created translation carries the locale `Default`. -/
theorem C15_empty_locale_is_default {α : Type} (env : Env α) (i : I18n) (key : String)
    (args : List α) :
    i.T env "" key args = i.T env env.Default key args ∧
      (i.autoCreated (effectiveLocale env "") key).Locale = env.Default := by
  have h1 : effectiveLocale env "" = env.Default := by simp [effectiveLocale]
  have h2 : effectiveLocale env env.Default = env.Default := by
    unfold effectiveLocale
    split <;> rfl
  refine ⟨?_, ?_⟩
  · unfold I18n.T
    rw [h1, h2]
  · rw [h1]
    rfl

/-- C16: on pairs whose keys are free of the separator, `cacheKey` is injective:
two cache keys are equal exactly when the locales and the keys are equal. -/
theorem C16_cacheKey_injective (l1 k1 l2 k2 : String) (h1 : sepFree k1) (h2 : sepFree k2) :
    cacheKey [l1, k1] = cacheKey [l2, k2] ↔ l1 = l2 ∧ k1 = k2 := by
  constructor
  · intro h
    rw [cacheKey_pair, cacheKey_pair] at h
    have hd := congrArg String.data h
    simp only [String.data_append, List.append_assoc] at hd
    have hl := list_sep_inj h1 h2 hd
    exact ⟨String.ext hl.1, String.ext hl.2⟩
  · rintro ⟨rfl, rfl⟩
    rfl

/-- C16, at `(en-US, user.name)` against `(en, user.name)`. -/
theorem C16_cacheKey_injective_witness :
    ¬ cacheKey ["en-US", "user.name"] = cacheKey ["en", "user.name"] :=
  fun h => absurd ((C16_cacheKey_injective "en-US" "user.name" "en" "user.name"
    (by decide) (by decide)).mp h).1 (by decide)

/-- C17: each view builder returns a view that differs from its receiver in
exactly one field (`Scope` in the scope, `Default` in the default value,
`Fallbacks` in the explicit fallback list) and shares its backends, static
fallback map and cache store; the builders commute. -/
theorem C17_builders_change_one_field (i : I18n) (s v : String) (ls : List String) :
    ((i.Scope s).scope = s ∧ (i.Scope s).value = i.value ∧
        (i.Scope s).fallbackLocales = i.fallbackLocales ∧
        (i.Scope s).FallbackLocales = i.FallbackLocales ∧
        (i.Scope s).Backends = i.Backends ∧ (i.Scope s).cacheStore = i.cacheStore) ∧
      ((i.Default v).value = v ∧ (i.Default v).scope = i.scope ∧
        (i.Default v).fallbackLocales = i.fallbackLocales ∧
        (i.Default v).FallbackLocales = i.FallbackLocales ∧
        (i.Default v).Backends = i.Backends ∧ (i.Default v).cacheStore = i.cacheStore) ∧
      ((i.Fallbacks ls).fallbackLocales = ls ∧ (i.Fallbacks ls).scope = i.scope ∧
        (i.Fallbacks ls).value = i.value ∧
        (i.Fallbacks ls).FallbackLocales = i.FallbackLocales ∧
        (i.Fallbacks ls).Backends = i.Backends ∧
        (i.Fallbacks ls).cacheStore = i.cacheStore) ∧
      ((i.Scope s).Default v = (i.Default v).Scope s ∧
        (i.Scope s).Fallbacks ls = (i.Fallbacks ls).Scope s ∧
        (i.Default v).Fallbacks ls = (i.Fallbacks ls).Default v ∧
        ((i.Scope s).Default v).Fallbacks ls = ((i.Fallbacks ls).Default v).Scope s) := by
  refine ⟨⟨rfl, rfl, rfl, rfl, rfl, rfl⟩, ⟨rfl, rfl, rfl, rfl, rfl, rfl⟩,
    ⟨rfl, rfl, rfl, rfl, rfl, rfl⟩, ⟨rfl, rfl, rfl, rfl⟩⟩

/-! ## Properties of the YAML backend, the snapshot and the frame of `T` -/

namespace yaml

mutual
theorem loadTranslationsFromYaml_eq (locale : String) :
    ∀ (v : Value) (scopes : List String),
      loadTranslationsFromYaml locale v scopes =
        v.leaves.map (fun p =>
          ({ Locale := locale, Key := String.intercalate "." (scopes ++ p.1), Value := p.2,
             Backend := none } : Translation))
  | Value.leaf sprint, scopes => by
    simp [loadTranslationsFromYaml, Value.leaves]
  | Value.mapSlice items, scopes => by
    rw [loadTranslationsFromYaml, Value.leaves]
    exact loadItems_eq locale items scopes
theorem loadItems_eq (locale : String) :
    ∀ (items : MapSlice) (scopes : List String),
      loadItems locale items scopes =
        items.leaves.map (fun p =>
          ({ Locale := locale, Key := String.intercalate "." (scopes ++ p.1), Value := p.2,
             Backend := none } : Translation))
  | MapSlice.nil, scopes => by
    simp [loadItems, MapSlice.leaves]
  | MapSlice.cons key value rest, scopes => by
    rw [loadItems, MapSlice.leaves, loadTranslationsFromYaml_eq locale value,
      loadItems_eq locale rest scopes]
    simp [List.map_append, List.map_map, Function.comp, List.append_assoc]
end

theorem LoadYAMLContent_eq :
    ∀ slice : MapSlice, stringKeys slice → LoadYAMLContent slice = some (flatten slice)
  | MapSlice.nil, _ => rfl
  | MapSlice.cons key value rest, h => by
    obtain ⟨⟨s, hs⟩, hrest⟩ := h
    subst hs
    simp only [LoadYAMLContent, Key.assertString, LoadYAMLContent_eq rest hrest, flatten,
      Key.Sprint]
    rw [loadTranslationsFromYaml_eq]
    simp

end yaml

/-- C18: on a decoded document whose top-level keys are strings,
`LoadYAMLContent` returns one translation per non-mapping leaf, in document
order: the locale is the top-level key above the leaf, the key is the path of
mapping keys below the locale joined with dots, the value is the printed
leaf. Below a mapping the recursion collects the leaves of its items, and an
empty mapping yields no translation. -/
theorem C18_yaml_flattening (slice : yaml.MapSlice) (h : yaml.stringKeys slice) :
    yaml.LoadYAMLContent slice = some (yaml.flatten slice) ∧
      (∀ locale scopes, yaml.loadTranslationsFromYaml locale
        (yaml.Value.mapSlice yaml.MapSlice.nil) scopes = []) ∧
      (∀ locale scopes sprint, yaml.loadTranslationsFromYaml locale
        (yaml.Value.leaf sprint) scopes =
          [{ Locale := locale, Key := String.intercalate "." scopes, Value := sprint,
             Backend := none }]) := by
  refine ⟨?_, fun locale scopes => ?_, fun locale scopes sprint => ?_⟩
  · exact yaml.LoadYAMLContent_eq slice h
  · simp [yaml.loadTranslationsFromYaml, yaml.loadItems]
  · simp [yaml.loadTranslationsFromYaml]

/-- C18, at the document `{en: {user: {name: "Name"}}}`. -/
theorem C18_yaml_flattening_witness :
    yaml.LoadYAMLContent yaml.exampleDocument =
      some [{ Locale := "en", Key := "user.name", Value := "Name", Backend := none }] :=
  (C18_yaml_flattening yaml.exampleDocument
    ⟨⟨"en", rfl⟩, trivial⟩).1.trans (by decide)

theorem snapshot_put_lookup (s : Snapshot) (t : Translation) (locale key : String) :
    (s.put t).lookup locale key =
      if t.Locale = locale ∧ t.Key = key then some t else s.lookup locale key := by
  unfold Snapshot.put Snapshot.lookup
  by_cases hl : locale = t.Locale
  · subst hl
    cases hs : s t.Locale with
    | none =>
      by_cases hk : key = t.Key
      · subst hk; simp [hs]
      · have hk2 : ¬ t.Key = key := fun h => hk h.symm
        simp [hs, hk, hk2]
    | some inner =>
      by_cases hk : key = t.Key
      · subst hk; simp [hs]
      · have hk2 : ¬ t.Key = key := fun h => hk h.symm
        simp [hs, hk, hk2]
  · have hl2 : ¬ t.Locale = locale := fun h => hl h.symm
    cases hs : s t.Locale with
    | none => simp [hs, hl, hl2]
    | some inner => simp [hs, hl, hl2]

theorem foldl_put_lookup (locale key : String) (ts : List Translation) :
    ∀ s : Snapshot, (ts.foldl Snapshot.put s).lookup locale key =
      match lastEntry ts locale key with
      | some t => some t
      | none => s.lookup locale key := by
  unfold lastEntry
  induction ts with
  | nil => intro s; simp
  | cons t ts ih =>
    intro s
    rw [List.foldl_cons, ih, List.reverse_cons, List.find?_append]
    cases hf : ts.reverse.find? (fun t => t.Locale = locale ∧ t.Key = key) with
    | some x => simp
    | none =>
      rw [snapshot_put_lookup]
      by_cases hp : t.Locale = locale ∧ t.Key = key
      · simp [List.find?, hp]
      · simp [List.find?, hp]

theorem snapshot_lookup (locale key : String) (s : Snapshot) (bs : List Backend) :
    (bs.reverse.foldl
      (fun translations backend => backend.LoadTranslations.foldl Snapshot.put translations)
        s).lookup locale key =
      match bs.findSome? (fun b => lastEntry b.LoadTranslations locale key) with
      | some t => some t
      | none => s.lookup locale key := by
  induction bs with
  | nil => simp
  | cons b rest ih =>
    rw [List.reverse_cons, List.foldl_append]
    simp only [List.foldl_cons, List.foldl_nil]
    rw [foldl_put_lookup, List.findSome?_cons]
    cases hf : lastEntry b.LoadTranslations locale key with
    | some x => simp
    | none => simp only []; exact ih

theorem foldl_add_backends (ts : List Translation) :
    ∀ i : I18n, (ts.foldl I18n.AddTranslation i).Backends = i.Backends := by
  induction ts with
  | nil => intro i; rfl
  | cons t ts ih => intro i; rw [List.foldl_cons, ih]; rfl

theorem load_backends (i : I18n) (bs : List Backend) :
    (bs.foldl (fun acc backend => backend.LoadTranslations.foldl I18n.AddTranslation acc)
      i).Backends = i.Backends := by
  induction bs generalizing i with
  | nil => rfl
  | cons b rest ih => rw [List.foldl_cons, ih, foldl_add_backends]

theorem New_backends (bs : List Backend) : (New bs).Backends = bs := by
  unfold New I18n.loadToCacheStore
  rw [load_backends]

theorem findSome?_congr_mem {α : Type 1} {β : Type} {f g : α → Option β} :
    ∀ {l : List α}, (∀ x ∈ l, f x = g x) → l.findSome? f = l.findSome? g := by
  intro l
  induction l with
  | nil => intro _; rfl
  | cons a l ih =>
    intro h
    rw [List.findSome?_cons, List.findSome?_cons, h a (List.mem_cons_self a l),
      ih (fun x hx => h x (List.mem_cons_of_mem a hx))]

/-- C19 amended: with separator-free keys, the snapshot of `LoadTranslations` at
`(locale, key)` is the last entry for the pair of the lowest-index backend
returning it; whenever the snapshot is defined there, the freshly loaded cache
holds that translation (as serialised, so with the same `Value`) under
`cacheKey(locale, key)`; and for a separator-free key the cache holds an entry
there exactly when the snapshot is defined. -/
theorem C19_snapshot_agrees_with_cache (bs : List Backend) (locale key : String)
    (hsep : ∀ b ∈ bs, ∀ t ∈ b.LoadTranslations, sepFree t.Key) :
    (New bs).LoadTranslations.lookup locale key =
        bs.findSome? (fun b => lastEntry b.LoadTranslations locale key) ∧
      (∀ t, (New bs).LoadTranslations.lookup locale key = some t →
        (New bs).cacheStore.values (cacheKey [locale, key]) = some t.stored ∧
        t.stored.Value = t.Value) ∧
      (sepFree key →
        (New bs).cacheStore.values (cacheKey [locale, key]) =
          ((New bs).LoadTranslations.lookup locale key).map Translation.stored) := by
  have hsnap : (New bs).LoadTranslations.lookup locale key =
      bs.findSome? (fun b => lastEntry b.LoadTranslations locale key) := by
    unfold I18n.LoadTranslations
    rw [New_backends, snapshot_lookup]
    cases bs.findSome? (fun b => lastEntry b.LoadTranslations locale key) <;> rfl
  have hcongr : sepFree key → bs.findSome? (fun b => b.LoadTranslations.reverse.find?
      (fun t => cacheKey [t.Locale, t.Key] = cacheKey [locale, key])) =
      bs.findSome? (fun b => lastEntry b.LoadTranslations locale key) := by
    intro hkey
    apply findSome?_congr_mem
    intro b hb
    unfold lastEntry
    apply find?_congr_mem
    intro x hx
    have hx1 : x ∈ b.LoadTranslations := by simpa using hx
    have hxs := hsep b hb x hx1
    by_cases hp : x.Locale = locale ∧ x.Key = key
    · simp [hp.1, hp.2]
    · have : ¬ cacheKey [x.Locale, x.Key] = cacheKey [locale, key] :=
        fun hc => hp (cacheKey_inj hxs hkey hc)
      simp [hp, this]
  have hcache : sepFree key → (New bs).cacheStore.values (cacheKey [locale, key]) =
      ((New bs).LoadTranslations.lookup locale key).map Translation.stored := by
    intro hkey
    rw [hsnap]
    unfold New I18n.loadToCacheStore
    rw [load_values, hcongr hkey]
    cases bs.findSome? (fun b => lastEntry b.LoadTranslations locale key) <;> rfl
  refine ⟨hsnap, fun t ht => ⟨?_, rfl⟩, hcache⟩
  have hfound := ht
  rw [hsnap] at hfound
  obtain ⟨b, hb, hbt⟩ := List.exists_of_findSome?_eq_some hfound
  have htmem : t ∈ b.LoadTranslations := by
    have := List.mem_of_find?_eq_some hbt
    simpa using this
  have htp : t.Locale = locale ∧ t.Key = key := by
    have := List.find?_some hbt
    simpa using this
  have hkey : sepFree key := htp.2 ▸ hsep b hb t htmem
  rw [hcache hkey, ht]
  rfl

/-- C19 amended, at two backends that both return `(en, k)`: snapshot and
cache agree on the translation of the first backend. -/
theorem C19_snapshot_agrees_with_cache_witness :
    (New [readOnlyBackend [⟨"k", "en", "A", none⟩],
          readOnlyBackend [⟨"k", "en", "B", none⟩]]).LoadTranslations.lookup "en" "k" =
        some ⟨"k", "en", "A", none⟩ ∧
      (New [readOnlyBackend [⟨"k", "en", "A", none⟩],
            readOnlyBackend [⟨"k", "en", "B", none⟩]]).cacheStore.values
          (cacheKey ["en", "k"]) =
        ((New [readOnlyBackend [⟨"k", "en", "A", none⟩],
               readOnlyBackend [⟨"k", "en", "B", none⟩]]).LoadTranslations.lookup
          "en" "k").map Translation.stored :=
  ⟨(C19_snapshot_agrees_with_cache
      [readOnlyBackend [⟨"k", "en", "A", none⟩], readOnlyBackend [⟨"k", "en", "B", none⟩]]
      "en" "k" (by decide)).1.trans (by decide),
   (C19_snapshot_agrees_with_cache
      [readOnlyBackend [⟨"k", "en", "A", none⟩], readOnlyBackend [⟨"k", "en", "B", none⟩]]
      "en" "k" (by decide)).2.2 (by decide)⟩

/-- C19 as stated fails: the only backend returns `(a/b, c)`, whose key holds no
separator; the snapshot has nothing at locale `a` and key `b/c`, yet the
freshly loaded cache holds an entry under `cacheKey(a, b/c)`, the one of
`(a/b, c)`. -/
theorem C19_counterexample :
    (∀ b ∈ [readOnlyBackend [⟨"c", "a/b", "v", none⟩]],
        ∀ t ∈ b.LoadTranslations, sepFree t.Key) ∧
      (New [readOnlyBackend [⟨"c", "a/b", "v", none⟩]]).LoadTranslations.lookup "a" "b/c" =
        none ∧
      (New [readOnlyBackend [⟨"c", "a/b", "v", none⟩]]).cacheStore.values
        (cacheKey ["a", "b/c"]) = some ⟨"c", "a/b", "v", none⟩ := by
  decide

theorem save_events_saveCalls (i : I18n) (t : Translation) :
    (i.SaveTranslation t).events.filter Event.isSaveCall = [Event.saveCall t] := by
  have hloop : (saveLoop t 0 i.Backends).2.2.filter Event.isSaveCall = [] := by
    rw [List.filter_eq_nil_iff]
    intro e he
    obtain ⟨idx, hidx⟩ := saveLoop_events t i.Backends 0 e he
    subst hidx
    simp [Event.isSaveCall]
  unfold I18n.SaveTranslation
  split
  · simp [List.filter_cons, List.filter_append, Event.isSaveCall, hloop]
  · simp [List.filter_cons, Event.isSaveCall, hloop]

/-- C20: one call of `T` leaves every cache entry other than the one under
`cacheKey(effective locale, scoped key)` unchanged, calls `SaveTranslation`
at most once, and leaves the cache store unchanged when no backend accepts
the save of the synthesised translation. -/
theorem C20_T_changes_at_most_one_entry {α : Type} (env : Env α) (i : I18n)
    (locale key : String) (args : List α) :
    (∀ K, K ≠ cacheKey [effectiveLocale env locale, i.translationKey key] →
        (i.T env locale key args).i18n.cacheStore.values K = i.cacheStore.values K) ∧
      ((i.T env locale key args).events.filter Event.isSaveCall).length ≤ 1 ∧
      ((∀ b ∈ i.Backends,
          (b.SaveTranslation (i.autoCreated (effectiveLocale env locale) key)).1 ≠ none) →
        (i.T env locale key args).i18n.cacheStore = i.cacheStore) := by
  cases h : i.cacheStore.firstHit key
      (effectiveLocale env locale :: i.candidates env (effectiveLocale env locale)) with
  | some v =>
    have r := T_of_hit env i locale key args v h
    refine ⟨fun K _ => by rw [r.2.2], by rw [r.2.1]; simp, fun _ => by rw [r.2.2]⟩
  | none =>
    have hT := T_of_miss env i locale key args h
    have hst : (i.T env locale key args).i18n =
        (i.SaveTranslation (i.autoCreated (effectiveLocale env locale) key)).i18n := by
      rw [hT]; rfl
    have hev : (i.T env locale key args).events =
        (i.SaveTranslation (i.autoCreated (effectiveLocale env locale) key)).events := by
      rw [hT]; rfl
    refine ⟨fun K hK => ?_, ?_, fun hrej => ?_⟩
    · rw [hst]
      rcases save_cache_cases i (i.autoCreated (effectiveLocale env locale) key) with hc | hc
      · rw [hc]
      · rw [hc]
        have hK2 : ¬ K = cacheKey [(i.autoCreated (effectiveLocale env locale) key).Locale,
            (i.autoCreated (effectiveLocale env locale) key).Key] := hK
        simp only [CacheStore.Set]
        rw [if_neg hK2]
    · rw [hev, save_events_saveCalls]
      simp
    · rw [hst]
      exact save_cache_rejected i _ hrej

end i18n
